import Mathlib

/-!
Shallow embedding of the bounded-concurrency build driver from
`src/bootstrap/stage0/build.cpp` (namespace `Jakt.build`): the
`ParallelExecutionPool` (a fixed-capacity pool over external child
processes) and the `Builder` (compile phase + final archive step).

The platform process primitives (`start_background_process`,
`wait_for_some_set_of_processes_that_at_least_includes`,
`poll_process_exit`, `forcefully_kill_process`) live outside the
repository; they are modelled as an abstract deterministic `Platform`
with private state `σ`.  Jakt dictionaries are modelled as association
lists, Jakt dynamic arrays as lists, and the one unbounded loop
(`wait_for_all_jobs_to_complete`) takes explicit fuel.
-/

/-- Exit result of a child process: the exit code (any further fields of the
platform result are carried opaquely and never inspected by the driver). -/
structure ExitPollResult where
  exit_code : Int
deriving DecidableEq

/-- Modelled from the spec: the opaque process handle returned by the platform
spawn primitive, sufficient to poll, wait on and kill. -/
structure Process where
  handle : Nat
deriving DecidableEq

/-- Association-list model of a Jakt `Dictionary` keyed by job id:
`dictSet` inserts a fresh key at the end or updates an existing key in place. -/
def dictSet (k : Nat) (v : β) : List (Nat × β) → List (Nat × β)
  | [] => [(k, v)]
  | (a, b) :: rest => if a = k then (k, v) :: rest else (a, b) :: dictSet k v rest

/-- `Dictionary::remove`: drop the entry with the given key. -/
def dictRemove (k : Nat) (l : List (Nat × β)) : List (Nat × β) :=
  l.filter (fun kv => kv.1 != k)

/-- `Dictionary` lookup. -/
def dictGet (k : Nat) : List (Nat × β) → Option β
  | [] => none
  | (a, b) :: rest => if a = k then some b else dictGet k rest

/-- The keys of a dictionary. -/
def dictKeys (l : List (Nat × β)) : List Nat :=
  l.map Prod.fst

/-- Result of the platform spawn primitive. -/
inductive SpawnRes where
  | ok (p : Process)
  | err
deriving DecidableEq

/-- Result of the blocking platform wait: the terminated child's id when the
platform can identify it, plus its exit status. -/
inductive WaitRes where
  | ok (finished : Option Nat) (st : ExitPollResult)
  | err
deriving DecidableEq

/-- Result of the non-blocking platform poll of a single child. -/
inductive PollRes where
  | exited (st : ExitPollResult)
  | running
  | err
deriving DecidableEq

/-- Modelled from the spec: the platform process primitives are an external
black box; a `Platform` is any deterministic implementation with private
state `σ`.  `kill` has no failure mode in the platform contract. -/
structure Platform (σ : Type) where
  spawn : σ → List String → σ × SpawnRes
  waitAny : σ → List (Nat × Process) → σ × WaitRes
  poll : σ → Process → σ × PollRes
  kill : σ → Process → σ

/-- Errors the driver can return (`Error::from_errno(code)` is `fromErrno`;
`fuelOut` is the model artifact for exhausting wait fuel; `emptyOptional`
models calling `.value()` on an empty optional). -/
inductive Err where
  | spawnError
  | waitError
  | invocationError
  | fromErrno (code : Int)
  | fuelOut
  | emptyOptional
deriving DecidableEq

/-- Observable effects of the driver: diagnostic lines, submissions of a
command line to the platform spawn primitive, and forceful kills. -/
inductive Eff where
  | emit (line : String)
  | spawned (args : List String)
  | killed (p : Process)
deriving DecidableEq

/-- State of `build::ParallelExecutionPool`. -/
structure ParallelExecutionPool where
  pids : List (Nat × Process)
  completed : List (Nat × ExitPollResult)
  pid_index : Nat
  max_concurrent : Nat
deriving DecidableEq

/-- `ParallelExecutionPool::create`. -/
def ParallelExecutionPool.create (max_concurrent : Nat) : ParallelExecutionPool :=
  ⟨[], [], 0, max_concurrent⟩

/-- `ParallelExecutionPool::status`: the stored exit result if the id has
completed, otherwise absent. -/
def ParallelExecutionPool.status (pool : ParallelExecutionPool) (id : Nat) :
    Option ExitPollResult :=
  dictGet id pool.completed

/-- Outcome of one pool operation: final platform state, final pool state,
emitted effects, and the operation's result. -/
structure PoolStep (σ α : Type) where
  s : σ
  pool : ParallelExecutionPool
  effs : List Eff
  res : Except Err α

/-- The per-entry poll sweep inside `wait_for_any_job_to_complete`: every
entry of `pids` is polled; an entry whose poll reports an exit is staged with
the polled status, an entry whose poll errors is staged with the placeholder
`finished_status`, a still-running entry is left alone. -/
def sweepPolls (P : Platform σ) (finished_status : ExitPollResult) :
    σ → List (Nat × Process) → List (Nat × ExitPollResult) →
    σ × List (Nat × ExitPollResult)
  | s, [], staged => (s, staged)
  | s, (k, p) :: rest, staged =>
    match P.poll s p with
    | (s1, PollRes.exited st) =>
        sweepPolls P finished_status s1 rest (dictSet k st staged)
    | (s1, PollRes.running) =>
        sweepPolls P finished_status s1 rest staged
    | (s1, PollRes.err) =>
        sweepPolls P finished_status s1 rest (dictSet k finished_status staged)

/-- Apply the staged removals of `wait_for_any_job_to_complete`: delete each
staged id from `pids` and record its status in `completed`. -/
def applyRemovals (staged : List (Nat × ExitPollResult))
    (pool : ParallelExecutionPool) : ParallelExecutionPool :=
  match staged with
  | [] => pool
  | (k, st) :: rest =>
      applyRemovals rest
        { pool with
            pids := dictRemove k pool.pids
            completed := dictSet k st pool.completed }

/-- `ParallelExecutionPool::wait_for_any_job_to_complete`. -/
def ParallelExecutionPool.wait_for_any_job_to_complete (P : Platform σ) (s : σ)
    (pool : ParallelExecutionPool) : PoolStep σ Unit :=
  match P.waitAny s pool.pids with
  | (s1, WaitRes.err) => ⟨s1, pool, [], Except.error Err.waitError⟩
  | (s1, WaitRes.ok finished_pid finished_status) =>
    let staged0 : List (Nat × ExitPollResult) :=
      match finished_pid with
      | some k => dictSet k finished_status []
      | none => []
    let sw := sweepPolls P finished_status s1 pool.pids staged0
    ⟨sw.1, applyRemovals sw.2 pool, [], Except.ok ()⟩

/-- `ParallelExecutionPool::run`: wait once when at capacity, then spawn,
assign the next id and store the handle. -/
def ParallelExecutionPool.run (P : Platform σ) (s : σ)
    (pool : ParallelExecutionPool) (args : List String) : PoolStep σ Nat :=
  let pre : PoolStep σ Unit :=
    if pool.max_concurrent ≤ pool.pids.length then
      ParallelExecutionPool.wait_for_any_job_to_complete P s pool
    else ⟨s, pool, [], Except.ok ()⟩
  match pre.res with
  | Except.error e => ⟨pre.s, pre.pool, pre.effs, Except.error e⟩
  | Except.ok _ =>
    match P.spawn pre.s args with
    | (s1, SpawnRes.err) => ⟨s1, pre.pool, pre.effs, Except.error Err.spawnError⟩
    | (s1, SpawnRes.ok proc) =>
      ⟨s1,
        { pre.pool with
            pids := dictSet pre.pool.pid_index proc pre.pool.pids
            pid_index := pre.pool.pid_index + 1 },
        pre.effs ++ [Eff.spawned args], Except.ok pre.pool.pid_index⟩

/-- Kill every process of a pid dictionary in order, returning the effects. -/
def killList (P : Platform σ) : σ → List (Nat × Process) → σ × List Eff
  | s, [] => (s, [])
  | s, (_, p) :: rest =>
    let r := killList P (P.kill s p) rest
    (r.1, Eff.killed p :: r.2)

/-- `ParallelExecutionPool::kill_all`: forcefully kill every live child;
does not drain `pids`. -/
def ParallelExecutionPool.kill_all (P : Platform σ) (s : σ)
    (pool : ParallelExecutionPool) : σ × List Eff :=
  killList P s pool.pids

/-- `ParallelExecutionPool::wait_for_all_jobs_to_complete`: repeat
`wait_for_any_job_to_complete` until `pids` is empty (with explicit fuel). -/
def ParallelExecutionPool.wait_for_all_jobs_to_complete (P : Platform σ) :
    Nat → σ → ParallelExecutionPool → PoolStep σ Unit
  | 0, s, pool =>
    if pool.pids.isEmpty then ⟨s, pool, [], Except.ok ()⟩
    else ⟨s, pool, [], Except.error Err.fuelOut⟩
  | fuel + 1, s, pool =>
    if pool.pids.isEmpty then ⟨s, pool, [], Except.ok ()⟩
    else
      let o := ParallelExecutionPool.wait_for_any_job_to_complete P s pool
      match o.res with
      | Except.error e => ⟨o.s, o.pool, o.effs, Except.error e⟩
      | Except.ok _ =>
          ParallelExecutionPool.wait_for_all_jobs_to_complete P fuel o.s o.pool

/-- State of `build::Builder`. -/
structure Builder where
  linked_files : List String
  files_to_compile : List String
  pool : ParallelExecutionPool
deriving DecidableEq

/-- `Builder::for_building`. -/
def Builder.for_building (files : List String) (max_concurrent : Nat) : Builder :=
  ⟨[], files, ParallelExecutionPool.create max_concurrent⟩

/-- Modelled from the spec: the external path helper (`jakt::path`) is a
black box with `join`, `replace_extension`, `from_string`, `to_string`.
`joinStr bd f` is the string of path `bd` joined with `f`; `replaceExtO f`
is the string of `f` with its extension replaced by `"o"`. -/
structure PathOps where
  joinStr : String → String → String
  replaceExtO : String → String

/-- The failure sweep of `build_all`: does any completed job have a nonzero
exit code? -/
def sweepFail (completed : List (Nat × ExitPollResult)) : Bool :=
  completed.any (fun ke => ke.2.exit_code != 0)

/-- The progress line emitted per submitted file:
`ESC [2L Building: <submitted>/<total> (<file>)`. -/
def progressLine (k n : Nat) (f : String) : String :=
  (Char.ofNat 27).toString ++ "[2LBuilding: " ++ toString k ++ "/" ++
    toString n ++ " (" ++ f ++ ")"

/-- Outcome of a Builder operation. -/
structure BuildStep (σ : Type) where
  s : σ
  b : Builder
  effs : List Eff
  res : Except Err Unit

/-- `Set::add` on the local `ids` set of `build_all`. -/
def setAdd (x : Nat) (l : List Nat) : List Nat :=
  if x ∈ l then l else l ++ [x]

/-- The submission loop of `Builder::build_all`: for each remaining file,
sweep `completed` for failures (kill and abort on one), compute the object
path, append it to `linked_files`, build the compiler command, submit it,
and emit the progress line. -/
def buildLoop (P : Platform σ) (po : PathOps) (binary_dir : String)
    (compiler_invocation : String → String → Option (List String)) :
    σ → Builder → List Nat → List String → BuildStep σ
  | s, b, _, [] => ⟨s, b, [], Except.ok ()⟩
  | s, b, ids, file_name :: rest =>
    if sweepFail b.pool.completed then
      let kr := ParallelExecutionPool.kill_all P s b.pool
      ⟨kr.1, b, Eff.emit "Error: Compilation failed" :: kr.2,
        Except.error (Err.fromErrno 1)⟩
    else
      let built_object := po.joinStr binary_dir (po.replaceExtO file_name)
      let b1 := { b with linked_files := b.linked_files ++ [built_object] }
      match compiler_invocation (po.joinStr binary_dir file_name) built_object with
      | none => ⟨s, b1, [], Except.error Err.invocationError⟩
      | some args =>
        let o := ParallelExecutionPool.run P s b1.pool args
        match o.res with
        | Except.error e => ⟨o.s, { b1 with pool := o.pool }, o.effs, Except.error e⟩
        | Except.ok id =>
          let ids1 := setAdd id ids
          let line := progressLine ids1.length b1.files_to_compile.length file_name
          let o2 := buildLoop P po binary_dir compiler_invocation o.s
              { b1 with pool := o.pool } ids1 rest
          ⟨o2.s, o2.b, o.effs ++ Eff.emit line :: o2.effs, o2.res⟩

/-- The tail of `Builder::build_all` after the submission loop: wait for all
jobs, run the final failure sweep, and reset `files_to_compile` on success. -/
def finishPhase (P : Platform σ) (fuel : Nat) (s : σ) (b : Builder) : BuildStep σ :=
  let w := ParallelExecutionPool.wait_for_all_jobs_to_complete P fuel s b.pool
  let b1 := { b with pool := w.pool }
  match w.res with
  | Except.error e => ⟨w.s, b1, w.effs, Except.error e⟩
  | Except.ok _ =>
    if sweepFail b1.pool.completed then
      ⟨w.s, b1, [Eff.emit "Error: Compilation failed"], Except.error (Err.fromErrno 1)⟩
    else
      ⟨w.s, { b1 with files_to_compile := [] }, [], Except.ok ()⟩

/-- `Builder::build_all`. -/
def Builder.build_all (P : Platform σ) (po : PathOps) (binary_dir : String)
    (compiler_invocation : String → String → Option (List String)) (fuel : Nat)
    (s : σ) (b : Builder) : BuildStep σ :=
  let o := buildLoop P po binary_dir compiler_invocation s b [] b.files_to_compile
  match o.res with
  | Except.error _ => o
  | Except.ok _ =>
    let f := finishPhase P fuel o.s o.b
    ⟨f.s, f.b, o.effs ++ f.effs, f.res⟩

/-- `Builder::link_into_archive`: submit `[archiver, "cr", archive_filename]
++ linked_files` as one job, wait for all jobs, and check its exit code. -/
def Builder.link_into_archive (P : Platform σ) (fuel : Nat) (s : σ) (b : Builder)
    (archiver archive_filename : String) : BuildStep σ :=
  let args := archiver :: "cr" :: archive_filename :: b.linked_files
  let o := ParallelExecutionPool.run P s b.pool args
  match o.res with
  | Except.error e => ⟨o.s, { b with pool := o.pool }, o.effs, Except.error e⟩
  | Except.ok id =>
    let w := ParallelExecutionPool.wait_for_all_jobs_to_complete P fuel o.s o.pool
    let b1 := { b with pool := w.pool }
    match w.res with
    | Except.error e => ⟨w.s, b1, o.effs, Except.error e⟩
    | Except.ok _ =>
      match ParallelExecutionPool.status w.pool id with
      | none => ⟨w.s, b1, o.effs, Except.error Err.emptyOptional⟩
      | some st =>
        if st.exit_code != 0 then
          ⟨w.s, b1, o.effs ++ [Eff.emit "Error: Linking failed"],
            Except.error (Err.fromErrno 1)⟩
        else ⟨w.s, b1, o.effs, Except.ok ()⟩

/-- A driver-visible pool operation for traces of calls. -/
inductive PoolOp where
  | run (args : List String)
  | waitOne
  | waitAll (fuel : Nat)

/-- State reached by a trace of pool operations, with the job ids returned by
the successful `run` calls, in call order. -/
structure TraceStep (σ : Type) where
  s : σ
  pool : ParallelExecutionPool
  ids : List Nat

/-- Execute a sequence of pool operations, threading the platform and pool
state (errors leave the state as the operation left it, like the C++ object). -/
def execOps (P : Platform σ) : σ → ParallelExecutionPool → List PoolOp → TraceStep σ
  | s, pool, [] => ⟨s, pool, []⟩
  | s, pool, PoolOp.run args :: rest =>
    let o := ParallelExecutionPool.run P s pool args
    let t := execOps P o.s o.pool rest
    match o.res with
    | Except.ok id => ⟨t.s, t.pool, id :: t.ids⟩
    | Except.error _ => t
  | s, pool, PoolOp.waitOne :: rest =>
    let o := ParallelExecutionPool.wait_for_any_job_to_complete P s pool
    execOps P o.s o.pool rest
  | s, pool, PoolOp.waitAll fuel :: rest =>
    let o := ParallelExecutionPool.wait_for_all_jobs_to_complete P fuel s pool
    execOps P o.s o.pool rest

/-- The platform contract of the spec, relative to a ghost predicate `dead`
marking processes that have terminated by the time the wait returns:
a wait that names a finished id names one from the map it was given; a wait
that returns without naming one was nevertheless woken by some terminated
child of the map; and a non-blocking poll of a terminated child never
reports it as still running (it reports the exit or errors). -/
structure PlatformContract (P : Platform σ) (dead : Process → Prop) : Prop where
  wait_some_mem : ∀ s m s1 k st, P.waitAny s m = (s1, WaitRes.ok (some k) st) →
    k ∈ dictKeys m
  wait_none_dead : ∀ s m s1 st, P.waitAny s m = (s1, WaitRes.ok none st) →
    m ≠ [] → ∃ kp ∈ m, dead kp.2
  poll_dead : ∀ s p, dead p → (P.poll s p).2 ≠ PollRes.running

/-- A schedule of child terminations for a concrete platform: which entry the
blocking wait reports, each process's eventual exit code, and whether a poll
at a given instant sees a given process as exited. -/
structure Sched where
  pick : List Nat → Nat
  exitOf : Nat → Int
  pollsExit : Nat → Nat → Bool

/-- The concrete error-free platform driven by a schedule: state is
(spawn counter, clock); spawning never fails, the wait always reports the
scheduled entry of a nonempty map with that process's exit code, and polls
never error. -/
def schedPlat (sc : Sched) : Platform (Nat × Nat) where
  spawn := fun s _ => ((s.1 + 1, s.2 + 1), SpawnRes.ok ⟨s.1⟩)
  waitAny := fun s m =>
    match m with
    | [] => ((s.1, s.2 + 1), WaitRes.err)
    | e :: es =>
      let kp := (e :: es).get
        ⟨sc.pick (dictKeys (e :: es)) % (e :: es).length,
          Nat.mod_lt _ (Nat.succ_pos es.length)⟩
      ((s.1, s.2 + 1), WaitRes.ok (some kp.1) ⟨sc.exitOf kp.2.handle⟩)
  poll := fun s p =>
    ((s.1, s.2 + 1),
      if sc.pollsExit s.2 p.handle then PollRes.exited ⟨sc.exitOf p.handle⟩
      else PollRes.running)
  kill := fun s _ => s

/-- A simple demonstration platform: spawning always succeeds (handles count
up), the wait reports the first entry of the map with exit code 0, polls
always report still-running, kills succeed. -/
def demoPlat : Platform Nat where
  spawn := fun s _ => (s + 1, SpawnRes.ok ⟨s⟩)
  waitAny := fun s m =>
    match m with
    | [] => (s, WaitRes.err)
    | kp :: _ => (s, WaitRes.ok (some kp.1) ⟨0⟩)
  poll := fun s _ => (s, PollRes.running)
  kill := fun s _ => s

/-- The diagnostic lines among a list of effects. -/
def emitted (effs : List Eff) : List String :=
  effs.filterMap (fun e => match e with | Eff.emit l => some l | _ => none)

/-- The command lines submitted to the spawn primitive among a list of
effects, in order. -/
def submissions (effs : List Eff) : List (List String) :=
  effs.filterMap (fun e => match e with | Eff.spawned a => some a | _ => none)

/-- The kill effects among a list of effects. -/
def kills (effs : List Eff) : List Eff :=
  effs.filter (fun e => match e with | Eff.killed _ => true | _ => false)

/-! ### Dictionary lemmas -/

theorem mem_dictSet (k : Nat) (v : β) (l : List (Nat × β)) (kv : Nat × β)
    (h : kv ∈ dictSet k v l) : kv = (k, v) ∨ kv ∈ l := by
  induction l with
  | nil => simpa [dictSet] using h
  | cons a rest ih =>
    rcases a with ⟨a1, a2⟩
    simp only [dictSet] at h
    by_cases ha : a1 = k
    · rw [if_pos ha] at h
      rcases List.mem_cons.mp h with h | h
      · exact Or.inl h
      · exact Or.inr (List.mem_cons.mpr (Or.inr h))
    · rw [if_neg ha] at h
      rcases List.mem_cons.mp h with h | h
      · exact Or.inr (List.mem_cons.mpr (Or.inl h))
      · rcases ih h with h | h
        · exact Or.inl h
        · exact Or.inr (List.mem_cons.mpr (Or.inr h))

theorem mem_pair_dictSet (k : Nat) (v : β) (l : List (Nat × β)) :
    (k, v) ∈ dictSet k v l := by
  induction l with
  | nil => simp [dictSet]
  | cons a rest ih =>
    rcases a with ⟨a1, a2⟩
    by_cases ha : a1 = k
    · simp [dictSet, ha]
    · simp only [dictSet, if_neg ha]
      exact List.mem_cons.mpr (Or.inr ih)

theorem mem_dictSet_of_ne (k : Nat) (v : β) (l : List (Nat × β)) (a : Nat) (b : β)
    (hmem : (a, b) ∈ l) (hne : a ≠ k) : (a, b) ∈ dictSet k v l := by
  induction l with
  | nil => simp at hmem
  | cons e rest ih =>
    rcases e with ⟨e1, e2⟩
    by_cases he : e1 = k
    · simp only [dictSet, if_pos he]
      rcases List.mem_cons.mp hmem with h | h
      · exact absurd (by rw [he] at h; exact congrArg Prod.fst h) hne
      · exact List.mem_cons.mpr (Or.inr h)
    · simp only [dictSet, if_neg he]
      rcases List.mem_cons.mp hmem with h | h
      · exact List.mem_cons.mpr (Or.inl h)
      · exact List.mem_cons.mpr (Or.inr (ih h))

theorem mem_dictKeys (a : Nat) (l : List (Nat × β)) :
    a ∈ dictKeys l ↔ ∃ b, (a, b) ∈ l := by
  simp only [dictKeys, List.mem_map]
  constructor
  · rintro ⟨⟨x1, x2⟩, hx, rfl⟩
    exact ⟨x2, hx⟩
  · rintro ⟨b, hb⟩
    exact ⟨(a, b), hb, rfl⟩

theorem mem_dictKeys_dictSet_self (k : Nat) (v : β) (l : List (Nat × β)) :
    k ∈ dictKeys (dictSet k v l) :=
  (mem_dictKeys k _).mpr ⟨v, mem_pair_dictSet k v l⟩

theorem mem_dictKeys_dictSet_of (a k : Nat) (v : β) (l : List (Nat × β))
    (h : a ∈ dictKeys l) : a ∈ dictKeys (dictSet k v l) := by
  rcases (mem_dictKeys a l).mp h with ⟨b, hb⟩
  by_cases ha : a = k
  · rw [ha]; exact mem_dictKeys_dictSet_self k v l
  · exact (mem_dictKeys a _).mpr ⟨b, mem_dictSet_of_ne k v l a b hb ha⟩

theorem dictKeys_dictSet_sub (k : Nat) (v : β) (l : List (Nat × β)) :
    dictKeys (dictSet k v l) ⊆ k :: dictKeys l := by
  intro a ha
  rcases (mem_dictKeys a _).mp ha with ⟨b, hb⟩
  rcases mem_dictSet k v l (a, b) hb with h | h
  · exact List.mem_cons.mpr (Or.inl (congrArg Prod.fst h))
  · exact List.mem_cons.mpr (Or.inr ((mem_dictKeys a l).mpr ⟨b, h⟩))

theorem dictGet_dictSet_self (k : Nat) (v : β) (l : List (Nat × β)) :
    dictGet k (dictSet k v l) = some v := by
  induction l with
  | nil => simp [dictSet, dictGet]
  | cons a rest ih =>
    rcases a with ⟨a1, a2⟩
    by_cases ha : a1 = k
    · simp [dictSet, dictGet, ha]
    · simp [dictSet, dictGet, ha, ih]

theorem dictGet_dictSet_ne (a k : Nat) (v : β) (l : List (Nat × β)) (h : a ≠ k) :
    dictGet a (dictSet k v l) = dictGet a l := by
  have hka : ¬(k = a) := fun hh => h hh.symm
  induction l with
  | nil => simp [dictSet, dictGet, hka]
  | cons e rest ih =>
    rcases e with ⟨e1, e2⟩
    by_cases he : e1 = k
    · rw [he]
      simp [dictSet, dictGet, hka]
    · by_cases hea : e1 = a
      · simp [dictSet, dictGet, he, hea, h]
      · simp [dictSet, dictGet, he, hea, ih]

theorem dictSet_length_le (k : Nat) (v : β) (l : List (Nat × β)) :
    (dictSet k v l).length ≤ l.length + 1 := by
  induction l with
  | nil => simp [dictSet]
  | cons a rest ih =>
    rcases a with ⟨a1, a2⟩
    by_cases ha : a1 = k
    · simp [dictSet, ha]
    · simp only [dictSet, if_neg ha, List.length_cons]
      exact Nat.succ_le_succ ih

theorem nodup_dictKeys_dictSet (k : Nat) (v : β) (l : List (Nat × β))
    (h : (dictKeys l).Nodup) : (dictKeys (dictSet k v l)).Nodup := by
  induction l with
  | nil => simp [dictSet, dictKeys]
  | cons a rest ih =>
    rcases a with ⟨a1, a2⟩
    simp only [dictKeys, List.map_cons, List.nodup_cons] at h
    by_cases ha : a1 = k
    · rw [show dictSet k v ((a1, a2) :: rest) = (k, v) :: rest from by
        simp [dictSet, ha]]
      simp only [dictKeys, List.map_cons, List.nodup_cons]
      refine ⟨?_, h.2⟩
      rw [← ha]
      exact h.1
    · simp only [dictSet, if_neg ha, dictKeys, List.map_cons, List.nodup_cons]
      refine ⟨?_, ih h.2⟩
      intro hc
      rcases List.mem_cons.mp (dictKeys_dictSet_sub k v rest hc) with hc | hc
      · exact ha hc
      · exact h.1 hc

theorem mem_dictRemove (k : Nat) (l : List (Nat × β)) (kv : Nat × β) :
    kv ∈ dictRemove k l ↔ kv ∈ l ∧ kv.1 ≠ k := by
  simp [dictRemove, List.mem_filter, bne_iff_ne]

theorem dictRemove_length_le (k : Nat) (l : List (Nat × β)) :
    (dictRemove k l).length ≤ l.length :=
  List.length_filter_le _ _

theorem dictRemove_length_lt (k : Nat) (l : List (Nat × β))
    (h : k ∈ dictKeys l) : (dictRemove k l).length < l.length := by
  induction l with
  | nil => simp [dictKeys] at h
  | cons a rest ih =>
    rcases a with ⟨a1, a2⟩
    by_cases ha : a1 = k
    · have hf : (a1 != k) = false := by simp [ha]
      simp only [dictRemove, List.filter_cons, hf, List.length_cons]
      exact Nat.lt_succ_of_le (List.length_filter_le _ _)
    · have ht : (a1 != k) = true := by simp [ha]
      have hmem : k ∈ dictKeys rest := by
        have h2 : k = a1 ∨ k ∈ dictKeys rest := by
          simpa only [dictKeys, List.map_cons, List.mem_cons] using h
        rcases h2 with hc | hc
        · exact absurd hc.symm ha
        · exact hc
      simp only [dictRemove, List.filter_cons, ht, List.length_cons]
      exact Nat.succ_lt_succ (by simpa [dictRemove] using ih hmem)

theorem mem_dictKeys_dictRemove (a k : Nat) (l : List (Nat × β)) :
    a ∈ dictKeys (dictRemove k l) ↔ a ∈ dictKeys l ∧ a ≠ k := by
  constructor
  · intro h
    rcases (mem_dictKeys a _).mp h with ⟨b, hb⟩
    rw [mem_dictRemove] at hb
    exact ⟨(mem_dictKeys a l).mpr ⟨b, hb.1⟩, hb.2⟩
  · rintro ⟨ha, hne⟩
    rcases (mem_dictKeys a l).mp ha with ⟨b, hb⟩
    exact (mem_dictKeys a _).mpr ⟨b, (mem_dictRemove k l (a, b)).mpr ⟨hb, hne⟩⟩

theorem nodup_dictKeys_dictRemove (k : Nat) (l : List (Nat × β))
    (h : (dictKeys l).Nodup) : (dictKeys (dictRemove k l)).Nodup := by
  have hsub : List.Sublist (dictRemove k l) l := List.filter_sublist l
  exact List.Nodup.sublist (hsub.map Prod.fst) h

theorem dictGet_dictRemove_ne (a k : Nat) (l : List (Nat × β)) (h : a ≠ k) :
    dictGet a (dictRemove k l) = dictGet a l := by
  induction l with
  | nil => rfl
  | cons e rest ih =>
    rcases e with ⟨e1, e2⟩
    by_cases he : e1 = k
    · have hf : (e1 != k) = false := by simp [he]
      have hna : ¬(e1 = a) := by rw [he]; exact fun hh => h hh.symm
      simp only [dictRemove, List.filter_cons, hf]
      rw [show dictGet a ((e1, e2) :: rest) = dictGet a rest from by
        simp [dictGet, hna]]
      simpa [dictRemove] using ih
    · have ht : (e1 != k) = true := by simp [he]
      simp only [dictRemove, List.filter_cons, ht]
      by_cases hea : e1 = a
      · simp [dictGet, hea]
      · simp only [dictGet, if_neg hea]
        simpa [dictRemove] using ih

theorem dictGet_isSome_iff (a : Nat) (l : List (Nat × β)) :
    (dictGet a l).isSome ↔ a ∈ dictKeys l := by
  induction l with
  | nil => simp [dictGet, dictKeys]
  | cons e rest ih =>
    rcases e with ⟨e1, e2⟩
    by_cases he : e1 = a
    · simp [dictGet, he, dictKeys]
    · have hna : ¬(a = e1) := fun hh => he hh.symm
      simp [dictGet, he, dictKeys, hna, ih]

/-! ### applyRemovals lemmas -/

theorem applyRemovals_pid_index (staged : List (Nat × ExitPollResult))
    (pool : ParallelExecutionPool) :
    (applyRemovals staged pool).pid_index = pool.pid_index := by
  induction staged generalizing pool with
  | nil => rfl
  | cons e rest ih =>
    rcases e with ⟨k, st⟩
    simp only [applyRemovals]
    rw [ih]

theorem applyRemovals_max (staged : List (Nat × ExitPollResult))
    (pool : ParallelExecutionPool) :
    (applyRemovals staged pool).max_concurrent = pool.max_concurrent := by
  induction staged generalizing pool with
  | nil => rfl
  | cons e rest ih =>
    rcases e with ⟨k, st⟩
    simp only [applyRemovals]
    rw [ih]

theorem applyRemovals_pids_mem (staged : List (Nat × ExitPollResult))
    (pool : ParallelExecutionPool) (kv : Nat × Process)
    (h : kv ∈ (applyRemovals staged pool).pids) : kv ∈ pool.pids := by
  induction staged generalizing pool with
  | nil => exact h
  | cons e rest ih =>
    rcases e with ⟨k, st⟩
    simp only [applyRemovals] at h
    exact ((mem_dictRemove k pool.pids kv).mp (ih _ h)).1

theorem applyRemovals_keys_pids_mem (staged : List (Nat × ExitPollResult))
    (pool : ParallelExecutionPool) (a : Nat)
    (h : a ∈ dictKeys (applyRemovals staged pool).pids) : a ∈ dictKeys pool.pids := by
  rcases (mem_dictKeys a _).mp h with ⟨b, hb⟩
  exact (mem_dictKeys a _).mpr ⟨b, applyRemovals_pids_mem staged pool (a, b) hb⟩

theorem applyRemovals_pids_length_le (staged : List (Nat × ExitPollResult))
    (pool : ParallelExecutionPool) :
    (applyRemovals staged pool).pids.length ≤ pool.pids.length := by
  induction staged generalizing pool with
  | nil => exact Nat.le_refl _
  | cons e rest ih =>
    rcases e with ⟨k, st⟩
    simp only [applyRemovals]
    exact Nat.le_trans (ih _) (dictRemove_length_le k pool.pids)

theorem applyRemovals_pids_length_lt (staged : List (Nat × ExitPollResult))
    (pool : ParallelExecutionPool)
    (h : ∃ kst ∈ staged, kst.1 ∈ dictKeys pool.pids) :
    (applyRemovals staged pool).pids.length < pool.pids.length := by
  induction staged generalizing pool with
  | nil => simp at h
  | cons e rest ih =>
    rcases e with ⟨k, st⟩
    simp only [applyRemovals]
    by_cases hk : k ∈ dictKeys pool.pids
    · exact Nat.lt_of_le_of_lt (applyRemovals_pids_length_le rest _)
        (dictRemove_length_lt k pool.pids hk)
    · rcases h with ⟨kst, hmem, hkey⟩
      rcases List.mem_cons.mp hmem with hc | hc
      · have hk1 : kst.1 = k := by rw [hc]
        exact absurd (hk1 ▸ hkey) hk
      · have hne : kst.1 ≠ k := fun hh => hk (hh ▸ hkey)
        have : kst.1 ∈ dictKeys (dictRemove k pool.pids) :=
          (mem_dictKeys_dictRemove kst.1 k pool.pids).mpr ⟨hkey, hne⟩
        exact Nat.lt_of_lt_of_le (ih _ ⟨kst, hc, this⟩)
          (dictRemove_length_le k pool.pids)

theorem applyRemovals_completed_mem (staged : List (Nat × ExitPollResult))
    (pool : ParallelExecutionPool) (ke : Nat × ExitPollResult)
    (h : ke ∈ (applyRemovals staged pool).completed) :
    ke ∈ pool.completed ∨ ke ∈ staged := by
  induction staged generalizing pool with
  | nil => exact Or.inl h
  | cons e rest ih =>
    rcases e with ⟨k, st⟩
    simp only [applyRemovals] at h
    rcases ih _ h with h1 | h1
    · rcases mem_dictSet k st pool.completed ke h1 with h2 | h2
      · exact Or.inr (List.mem_cons.mpr (Or.inl h2))
      · exact Or.inl h2
    · exact Or.inr (List.mem_cons.mpr (Or.inr h1))

theorem applyRemovals_keysP (staged : List (Nat × ExitPollResult))
    (pool : ParallelExecutionPool) (j : Nat)
    (h : j ∈ dictKeys pool.pids ∨ j ∈ dictKeys pool.completed) :
    j ∈ dictKeys (applyRemovals staged pool).pids ∨
      j ∈ dictKeys (applyRemovals staged pool).completed := by
  induction staged generalizing pool with
  | nil => exact h
  | cons e rest ih =>
    rcases e with ⟨k, st⟩
    simp only [applyRemovals]
    apply ih
    by_cases hj : j = k
    · exact Or.inr (hj ▸ mem_dictKeys_dictSet_self k st pool.completed)
    · rcases h with h | h
      · exact Or.inl ((mem_dictKeys_dictRemove j k pool.pids).mpr ⟨h, hj⟩)
      · exact Or.inr (mem_dictKeys_dictSet_of j k st pool.completed h)

theorem applyRemovals_nodup_pids (staged : List (Nat × ExitPollResult))
    (pool : ParallelExecutionPool) (h : (dictKeys pool.pids).Nodup) :
    (dictKeys (applyRemovals staged pool).pids).Nodup := by
  induction staged generalizing pool with
  | nil => exact h
  | cons e rest ih =>
    rcases e with ⟨k, st⟩
    simp only [applyRemovals]
    exact ih _ (nodup_dictKeys_dictRemove k pool.pids h)

theorem applyRemovals_unstaged (staged : List (Nat × ExitPollResult))
    (pool : ParallelExecutionPool) (k : Nat) (h : k ∉ dictKeys staged) :
    dictGet k (applyRemovals staged pool).completed = dictGet k pool.completed ∧
      (k ∈ dictKeys pool.pids → k ∈ dictKeys (applyRemovals staged pool).pids) := by
  induction staged generalizing pool with
  | nil => exact ⟨rfl, fun hh => hh⟩
  | cons e rest ih =>
    rcases e with ⟨k0, st0⟩
    have hk0 : k ≠ k0 := by
      intro hh
      exact h (by simp [dictKeys, hh])
    have hrest : k ∉ dictKeys rest := by
      intro hh
      exact h (by simp only [dictKeys, List.map_cons, List.mem_cons]; exact Or.inr hh)
    simp only [applyRemovals]
    have hih := ih (ParallelExecutionPool.mk (dictRemove k0 pool.pids)
      (dictSet k0 st0 pool.completed) pool.pid_index pool.max_concurrent) hrest
    rcases hih with ⟨h1, h2⟩
    constructor
    · rw [h1]
      exact dictGet_dictSet_ne k k0 st0 pool.completed hk0
    · intro hk
      exact h2 ((mem_dictKeys_dictRemove k k0 pool.pids).mpr ⟨hk, hk0⟩)

theorem applyRemovals_staged_get (staged : List (Nat × ExitPollResult))
    (pool : ParallelExecutionPool) (k : Nat) (st : ExitPollResult)
    (hnd : (dictKeys staged).Nodup) (hmem : (k, st) ∈ staged) :
    dictGet k (applyRemovals staged pool).completed = some st ∧
      k ∉ dictKeys (applyRemovals staged pool).pids := by
  induction staged generalizing pool with
  | nil => simp at hmem
  | cons e rest ih =>
    rcases e with ⟨k0, st0⟩
    simp only [dictKeys, List.map_cons, List.nodup_cons] at hnd
    simp only [applyRemovals]
    rcases List.mem_cons.mp hmem with hc | hc
    · have hk : k = k0 := congrArg Prod.fst hc
      have hst : st = st0 := congrArg Prod.snd hc
      subst hk
      subst hst
      have hns : k ∉ dictKeys rest := by simpa [dictKeys] using hnd.1
      have hu := applyRemovals_unstaged rest (ParallelExecutionPool.mk
        (dictRemove k pool.pids) (dictSet k st pool.completed)
        pool.pid_index pool.max_concurrent) k hns
      rcases hu with ⟨h1, h2⟩
      constructor
      · rw [h1]
        exact dictGet_dictSet_self k st pool.completed
      · intro hk
        have hmm := applyRemovals_keys_pids_mem rest _ k hk
        exact ((mem_dictKeys_dictRemove k k pool.pids).mp hmm).2 rfl
    · exact ih _ (by simpa [dictKeys] using hnd.2) hc

/-! ### sweepPolls lemmas -/

theorem sweepPolls_keys_mono (P : Platform σ) (fst : ExitPollResult)
    (s : σ) (pids : List (Nat × Process)) (staged : List (Nat × ExitPollResult))
    (a : Nat) (h : a ∈ dictKeys staged) :
    a ∈ dictKeys (sweepPolls P fst s pids staged).2 := by
  induction pids generalizing s staged with
  | nil => exact h
  | cons e rest ih =>
    rcases e with ⟨k, p⟩
    simp only [sweepPolls]
    rcases hp : P.poll s p with ⟨s1, pr⟩
    rcases pr with st | _ | _
    · exact ih s1 _ (mem_dictKeys_dictSet_of a k st staged h)
    · exact ih s1 _ h
    · exact ih s1 _ (mem_dictKeys_dictSet_of a k fst staged h)

theorem sweepPolls_keys_sub (P : Platform σ) (fst : ExitPollResult)
    (s : σ) (pids : List (Nat × Process)) (staged : List (Nat × ExitPollResult))
    (a : Nat) (h : a ∈ dictKeys (sweepPolls P fst s pids staged).2) :
    a ∈ dictKeys staged ∨ a ∈ dictKeys pids := by
  induction pids generalizing s staged with
  | nil => exact Or.inl h
  | cons e rest ih =>
    rcases e with ⟨k, p⟩
    simp only [sweepPolls] at h
    have keycase : ∀ st2 : ExitPollResult,
        a ∈ dictKeys (dictSet k st2 staged) →
        a ∈ dictKeys staged ∨ a ∈ dictKeys ((k, p) :: rest) := by
      intro st2 hh
      rcases List.mem_cons.mp (dictKeys_dictSet_sub k st2 staged hh) with hc | hc
      · exact Or.inr (by simp [dictKeys, hc])
      · exact Or.inl hc
    rcases hp : P.poll s p with ⟨s1, pr⟩
    rcases pr with st | _ | _ <;> rw [hp] at h
    · rcases ih s1 _ h with h1 | h1
      · exact keycase st h1
      · exact Or.inr (by simp only [dictKeys, List.map_cons, List.mem_cons]; exact Or.inr h1)
    · rcases ih s1 _ h with h1 | h1
      · exact Or.inl h1
      · exact Or.inr (by simp only [dictKeys, List.map_cons, List.mem_cons]; exact Or.inr h1)
    · rcases ih s1 _ h with h1 | h1
      · exact keycase fst h1
      · exact Or.inr (by simp only [dictKeys, List.map_cons, List.mem_cons]; exact Or.inr h1)

theorem sweepPolls_dead_mem (P : Platform σ) (fst : ExitPollResult)
    (s : σ) (pids : List (Nat × Process)) (staged : List (Nat × ExitPollResult))
    (k : Nat) (p : Process) (hmem : (k, p) ∈ pids)
    (hp : ∀ s0, (P.poll s0 p).2 ≠ PollRes.running) :
    k ∈ dictKeys (sweepPolls P fst s pids staged).2 := by
  induction pids generalizing s staged with
  | nil => simp at hmem
  | cons e rest ih =>
    rcases e with ⟨k0, p0⟩
    simp only [sweepPolls]
    rcases List.mem_cons.mp hmem with hc | hc
    · have hk : k = k0 := congrArg Prod.fst hc
      have hpp : p = p0 := congrArg Prod.snd hc
      subst hk
      subst hpp
      rcases hpoll : P.poll s p with ⟨s1, pr⟩
      rcases pr with st | _ | _
      · exact sweepPolls_keys_mono P fst s1 rest _ k
          (mem_dictKeys_dictSet_self k st staged)
      · exact absurd (by rw [hpoll]) (hp s)
      · exact sweepPolls_keys_mono P fst s1 rest _ k
          (mem_dictKeys_dictSet_self k fst staged)
    · rcases hpoll : P.poll s p0 with ⟨s1, pr⟩
      rcases pr with st | _ | _
      · exact ih s1 _ hc
      · exact ih s1 _ hc
      · exact ih s1 _ hc

theorem sweepPolls_mem_elim_noerr (P : Platform σ) (fst : ExitPollResult)
    (s : σ) (pids : List (Nat × Process)) (staged : List (Nat × ExitPollResult))
    (hnoerr : ∀ s0 p, (P.poll s0 p).2 ≠ PollRes.err)
    (kv : Nat × ExitPollResult) (h : kv ∈ (sweepPolls P fst s pids staged).2) :
    kv ∈ staged ∨ ∃ p s1 s2, (kv.1, p) ∈ pids ∧
      P.poll s1 p = (s2, PollRes.exited kv.2) := by
  induction pids generalizing s staged with
  | nil => exact Or.inl h
  | cons e rest ih =>
    rcases e with ⟨k, p⟩
    simp only [sweepPolls] at h
    rcases hpoll : P.poll s p with ⟨s1, pr⟩
    rcases pr with st | _ | _ <;> rw [hpoll] at h
    · rcases ih s1 _ h with h1 | h1
      · rcases mem_dictSet k st staged kv h1 with h2 | h2
        · subst h2
          exact Or.inr ⟨p, s, s1, List.mem_cons.mpr (Or.inl rfl), hpoll⟩
        · exact Or.inl h2
      · rcases h1 with ⟨p2, t1, t2, hmem, hpp⟩
        exact Or.inr ⟨p2, t1, t2, List.mem_cons.mpr (Or.inr hmem), hpp⟩
    · rcases ih s1 _ h with h1 | h1
      · exact Or.inl h1
      · rcases h1 with ⟨p2, t1, t2, hmem, hpp⟩
        exact Or.inr ⟨p2, t1, t2, List.mem_cons.mpr (Or.inr hmem), hpp⟩
    · exact absurd (by rw [hpoll]) (hnoerr s p)

/-! ### sweepPolls under a pure poll function (for the reaping sweep) -/

theorem sweepPolls_pure_frame (P : Platform σ) (pf : Process → PollRes)
    (hpure : ∀ s0 p, P.poll s0 p = (s0, pf p)) (fst : ExitPollResult)
    (s : σ) (pids : List (Nat × Process)) (staged : List (Nat × ExitPollResult))
    (k : Nat) (hk : k ∉ dictKeys pids) :
    dictGet k (sweepPolls P fst s pids staged).2 = dictGet k staged := by
  induction pids generalizing s staged with
  | nil => rfl
  | cons e rest ih =>
    rcases e with ⟨k0, p0⟩
    have hk0 : k ≠ k0 := by
      intro hh
      exact hk (by simp [dictKeys, hh])
    have hkr : k ∉ dictKeys rest := by
      intro hh
      exact hk (by simp only [dictKeys, List.map_cons, List.mem_cons]; exact Or.inr hh)
    simp only [sweepPolls, hpure s p0]
    cases hpf : pf p0 with
    | exited st =>
      rw [ih s _ hkr]
      exact dictGet_dictSet_ne k k0 st staged hk0
    | running => exact ih s _ hkr
    | err =>
      rw [ih s _ hkr]
      exact dictGet_dictSet_ne k k0 fst staged hk0

theorem sweepPolls_pure_get (P : Platform σ) (pf : Process → PollRes)
    (hpure : ∀ s0 p, P.poll s0 p = (s0, pf p)) (fst : ExitPollResult)
    (s : σ) (pids : List (Nat × Process)) (staged : List (Nat × ExitPollResult))
    (hnd : (dictKeys pids).Nodup) (k : Nat) (p : Process) (hmem : (k, p) ∈ pids) :
    dictGet k (sweepPolls P fst s pids staged).2 =
      (match pf p with
       | PollRes.exited st => some st
       | PollRes.err => some fst
       | PollRes.running => dictGet k staged) := by
  induction pids generalizing s staged with
  | nil => simp at hmem
  | cons e rest ih =>
    rcases e with ⟨k0, p0⟩
    simp only [dictKeys, List.map_cons, List.nodup_cons] at hnd
    rcases List.mem_cons.mp hmem with hc | hc
    · cases hc
      have hkr : k ∉ dictKeys rest := by simpa [dictKeys] using hnd.1
      simp only [sweepPolls, hpure s p]
      cases hpf : pf p with
      | exited st =>
        rw [sweepPolls_pure_frame P pf hpure fst s rest _ k hkr]
        exact dictGet_dictSet_self k st staged
      | running =>
        exact sweepPolls_pure_frame P pf hpure fst s rest _ k hkr
      | err =>
        rw [sweepPolls_pure_frame P pf hpure fst s rest _ k hkr]
        exact dictGet_dictSet_self k fst staged
    · have hk0 : k ≠ k0 := by
        intro hh
        apply hnd.1
        subst hh
        have := (mem_dictKeys k rest).mpr ⟨p, hc⟩
        simpa [dictKeys] using this
      simp only [sweepPolls, hpure s p0]
      cases hpf : pf p0 with
      | exited st =>
        rw [ih s _ (by simpa [dictKeys] using hnd.2) hc]
        cases pf p with
        | exited st2 => rfl
        | running => exact dictGet_dictSet_ne k k0 st staged hk0
        | err => rfl
      | running => exact ih s _ (by simpa [dictKeys] using hnd.2) hc
      | err =>
        rw [ih s _ (by simpa [dictKeys] using hnd.2) hc]
        cases pf p with
        | exited st2 => rfl
        | running => exact dictGet_dictSet_ne k k0 fst staged hk0
        | err => rfl

theorem sweepPolls_pure_not_mem (P : Platform σ) (pf : Process → PollRes)
    (hpure : ∀ s0 p, P.poll s0 p = (s0, pf p)) (fst : ExitPollResult)
    (s : σ) (pids : List (Nat × Process)) (staged : List (Nat × ExitPollResult))
    (hnd : (dictKeys pids).Nodup) (k : Nat) (p : Process) (hmem : (k, p) ∈ pids)
    (hrun : pf p = PollRes.running) (h0 : k ∉ dictKeys staged) :
    k ∉ dictKeys (sweepPolls P fst s pids staged).2 := by
  induction pids generalizing s staged with
  | nil => simp at hmem
  | cons e rest ih =>
    rcases e with ⟨k0, p0⟩
    simp only [dictKeys, List.map_cons, List.nodup_cons] at hnd
    rcases List.mem_cons.mp hmem with hc | hc
    · cases hc
      have hkr : k ∉ dictKeys rest := by simpa [dictKeys] using hnd.1
      simp only [sweepPolls, hpure s p, hrun]
      intro hcon
      rcases sweepPolls_keys_sub P fst s rest staged k hcon with h | h
      · exact h0 h
      · exact hkr h
    · have hk0 : k ≠ k0 := by
        intro hh
        apply hnd.1
        subst hh
        have := (mem_dictKeys k rest).mpr ⟨p, hc⟩
        simpa [dictKeys] using this
      simp only [sweepPolls, hpure s p0]
      cases hpf : pf p0 with
      | exited st =>
        apply ih s _ (by simpa [dictKeys] using hnd.2) hc
        intro hcon
        rcases List.mem_cons.mp (dictKeys_dictSet_sub k0 st staged hcon) with h | h
        · exact hk0 h
        · exact h0 h
      | running => exact ih s _ (by simpa [dictKeys] using hnd.2) hc h0
      | err =>
        apply ih s _ (by simpa [dictKeys] using hnd.2) hc
        intro hcon
        rcases List.mem_cons.mp (dictKeys_dictSet_sub k0 fst staged hcon) with h | h
        · exact hk0 h
        · exact h0 h

/-! ### wait_for_any_job_to_complete lemmas -/

theorem waitAnyJob_pid_index (P : Platform σ) (s : σ) (pool : ParallelExecutionPool) :
    (ParallelExecutionPool.wait_for_any_job_to_complete P s pool).pool.pid_index =
      pool.pid_index := by
  simp only [ParallelExecutionPool.wait_for_any_job_to_complete]
  rcases hw : P.waitAny s pool.pids with ⟨s1, wr⟩
  cases wr with
  | err => rfl
  | ok fin fst => exact applyRemovals_pid_index _ _

theorem waitAnyJob_max (P : Platform σ) (s : σ) (pool : ParallelExecutionPool) :
    (ParallelExecutionPool.wait_for_any_job_to_complete P s pool).pool.max_concurrent =
      pool.max_concurrent := by
  simp only [ParallelExecutionPool.wait_for_any_job_to_complete]
  rcases hw : P.waitAny s pool.pids with ⟨s1, wr⟩
  cases wr with
  | err => rfl
  | ok fin fst => exact applyRemovals_max _ _

theorem waitAnyJob_effs (P : Platform σ) (s : σ) (pool : ParallelExecutionPool) :
    (ParallelExecutionPool.wait_for_any_job_to_complete P s pool).effs = [] := by
  simp only [ParallelExecutionPool.wait_for_any_job_to_complete]
  rcases hw : P.waitAny s pool.pids with ⟨s1, wr⟩
  cases wr with
  | err => rfl
  | ok fin fst => rfl

theorem waitAnyJob_pids_length_le (P : Platform σ) (s : σ) (pool : ParallelExecutionPool) :
    (ParallelExecutionPool.wait_for_any_job_to_complete P s pool).pool.pids.length ≤
      pool.pids.length := by
  simp only [ParallelExecutionPool.wait_for_any_job_to_complete]
  rcases hw : P.waitAny s pool.pids with ⟨s1, wr⟩
  cases wr with
  | err => exact Nat.le_refl _
  | ok fin fst => exact applyRemovals_pids_length_le _ _

theorem waitAnyJob_pids_mem (P : Platform σ) (s : σ) (pool : ParallelExecutionPool)
    (kv : Nat × Process)
    (h : kv ∈ (ParallelExecutionPool.wait_for_any_job_to_complete P s pool).pool.pids) :
    kv ∈ pool.pids := by
  revert h
  simp only [ParallelExecutionPool.wait_for_any_job_to_complete]
  rcases hw : P.waitAny s pool.pids with ⟨s1, wr⟩
  cases wr with
  | err => exact fun h => h
  | ok fin fst => exact fun h => applyRemovals_pids_mem _ _ kv h

theorem waitAnyJob_nodup (P : Platform σ) (s : σ) (pool : ParallelExecutionPool)
    (h : (dictKeys pool.pids).Nodup) :
    (dictKeys (ParallelExecutionPool.wait_for_any_job_to_complete P s pool).pool.pids).Nodup := by
  simp only [ParallelExecutionPool.wait_for_any_job_to_complete]
  rcases hw : P.waitAny s pool.pids with ⟨s1, wr⟩
  cases wr with
  | err => exact h
  | ok fin fst => exact applyRemovals_nodup_pids _ _ h

theorem waitAnyJob_keysP (P : Platform σ) (s : σ) (pool : ParallelExecutionPool)
    (j : Nat) (h : j ∈ dictKeys pool.pids ∨ j ∈ dictKeys pool.completed) :
    j ∈ dictKeys (ParallelExecutionPool.wait_for_any_job_to_complete P s pool).pool.pids ∨
      j ∈ dictKeys (ParallelExecutionPool.wait_for_any_job_to_complete P s pool).pool.completed := by
  simp only [ParallelExecutionPool.wait_for_any_job_to_complete]
  rcases hw : P.waitAny s pool.pids with ⟨s1, wr⟩
  cases wr with
  | err => exact h
  | ok fin fst => exact applyRemovals_keysP _ _ j h

theorem waitAnyJob_err_pool (P : Platform σ) (s : σ) (pool : ParallelExecutionPool)
    (e : Err)
    (h : (ParallelExecutionPool.wait_for_any_job_to_complete P s pool).res = Except.error e) :
    (ParallelExecutionPool.wait_for_any_job_to_complete P s pool).pool = pool := by
  revert h
  simp only [ParallelExecutionPool.wait_for_any_job_to_complete]
  rcases hw : P.waitAny s pool.pids with ⟨s1, wr⟩
  cases wr with
  | err => exact fun _ => rfl
  | ok fin fst => exact fun h => by simp at h

theorem waitAnyJob_contract_decrease (P : Platform σ) (dead : Process → Prop)
    (hC : PlatformContract P dead) (s : σ) (pool : ParallelExecutionPool)
    (hne : pool.pids ≠ [])
    (hok : (ParallelExecutionPool.wait_for_any_job_to_complete P s pool).res = Except.ok ()) :
    (ParallelExecutionPool.wait_for_any_job_to_complete P s pool).pool.pids.length <
      pool.pids.length := by
  revert hok
  simp only [ParallelExecutionPool.wait_for_any_job_to_complete]
  rcases hw : P.waitAny s pool.pids with ⟨s1, wr⟩
  cases wr with
  | err => intro hok; simp at hok
  | ok fin fst =>
    intro _
    apply applyRemovals_pids_length_lt
    cases fin with
    | some k =>
      have hk : k ∈ dictKeys pool.pids := hC.wait_some_mem s pool.pids s1 k fst hw
      have hks : k ∈ dictKeys (dictSet k fst ([] : List (Nat × ExitPollResult))) :=
        mem_dictKeys_dictSet_self k fst []
      have hkey : k ∈ dictKeys (sweepPolls P fst s1 pool.pids (dictSet k fst [])).2 :=
        sweepPolls_keys_mono P fst s1 pool.pids _ k hks
      rcases (mem_dictKeys k _).mp hkey with ⟨v, hv⟩
      exact ⟨(k, v), hv, hk⟩
    | none =>
      rcases hC.wait_none_dead s pool.pids s1 fst hw hne with ⟨kp, hkp, hdead⟩
      have hkey : kp.1 ∈ dictKeys (sweepPolls P fst s1 pool.pids []).2 := by
        apply sweepPolls_dead_mem P fst s1 pool.pids [] kp.1 kp.2
        · exact hkp
        · exact fun s0 => hC.poll_dead s0 kp.2 hdead
      rcases (mem_dictKeys kp.1 _).mp hkey with ⟨v, hv⟩
      refine ⟨(kp.1, v), hv, ?_⟩
      exact (mem_dictKeys kp.1 pool.pids).mpr ⟨kp.2, hkp⟩

/-! ### run lemmas -/

theorem poolRun_max (P : Platform σ) (s : σ) (pool : ParallelExecutionPool)
    (args : List String) :
    (ParallelExecutionPool.run P s pool args).pool.max_concurrent = pool.max_concurrent := by
  simp only [ParallelExecutionPool.run]
  by_cases hcap : pool.max_concurrent ≤ pool.pids.length
  · rw [if_pos hcap]
    rcases hres : (ParallelExecutionPool.wait_for_any_job_to_complete P s pool).res with e | u
    · simp only [hres]
      exact waitAnyJob_max P s pool
    · simp only [hres]
      rcases hsp : P.spawn (ParallelExecutionPool.wait_for_any_job_to_complete P s pool).s args
        with ⟨s1, sr⟩
      cases sr with
      | err => exact waitAnyJob_max P s pool
      | ok proc => exact waitAnyJob_max P s pool
  · rw [if_neg hcap]
    rcases hsp : P.spawn s args with ⟨s1, sr⟩
    cases sr with
    | err => rfl
    | ok proc => rfl

theorem poolRun_pid_index_mono (P : Platform σ) (s : σ) (pool : ParallelExecutionPool)
    (args : List String) :
    pool.pid_index ≤ (ParallelExecutionPool.run P s pool args).pool.pid_index := by
  simp only [ParallelExecutionPool.run]
  by_cases hcap : pool.max_concurrent ≤ pool.pids.length
  · rw [if_pos hcap]
    rcases hres : (ParallelExecutionPool.wait_for_any_job_to_complete P s pool).res with e | u
    · simp only [hres]
      exact Nat.le_of_eq (waitAnyJob_pid_index P s pool).symm
    · simp only [hres]
      rcases hsp : P.spawn (ParallelExecutionPool.wait_for_any_job_to_complete P s pool).s args
        with ⟨s1, sr⟩
      cases sr with
      | err => exact Nat.le_of_eq (waitAnyJob_pid_index P s pool).symm
      | ok proc =>
        simp only
        rw [waitAnyJob_pid_index P s pool]
        exact Nat.le_succ _
  · rw [if_neg hcap]
    rcases hsp : P.spawn s args with ⟨s1, sr⟩
    cases sr with
    | err => exact Nat.le_refl _
    | ok proc => exact Nat.le_succ _

theorem poolRun_ok (P : Platform σ) (s : σ) (pool : ParallelExecutionPool)
    (args : List String) (id : Nat)
    (h : (ParallelExecutionPool.run P s pool args).res = Except.ok id) :
    id = pool.pid_index ∧
      (ParallelExecutionPool.run P s pool args).pool.pid_index = pool.pid_index + 1 ∧
      id ∈ dictKeys (ParallelExecutionPool.run P s pool args).pool.pids := by
  revert h
  simp only [ParallelExecutionPool.run]
  by_cases hcap : pool.max_concurrent ≤ pool.pids.length
  · rw [if_pos hcap]
    rcases hres : (ParallelExecutionPool.wait_for_any_job_to_complete P s pool).res with e | u
    · simp only [hres]
      intro h
      simp at h
    · simp only [hres]
      rcases hsp : P.spawn (ParallelExecutionPool.wait_for_any_job_to_complete P s pool).s args
        with ⟨s1, sr⟩
      cases sr with
      | err => intro h; simp at h
      | ok proc =>
        intro h
        simp only [Except.ok.injEq] at h
        subst h
        refine ⟨waitAnyJob_pid_index P s pool, ?_, ?_⟩
        · simp only
          rw [waitAnyJob_pid_index P s pool]
        · exact mem_dictKeys_dictSet_self _ proc _
  · rw [if_neg hcap]
    rcases hsp : P.spawn s args with ⟨s1, sr⟩
    cases sr with
    | err => intro h; simp at h
    | ok proc =>
      intro h
      simp only [Except.ok.injEq] at h
      subst h
      exact ⟨rfl, rfl, mem_dictKeys_dictSet_self _ proc _⟩

theorem poolRun_err_pid_index (P : Platform σ) (s : σ) (pool : ParallelExecutionPool)
    (args : List String) (e : Err)
    (h : (ParallelExecutionPool.run P s pool args).res = Except.error e) :
    (ParallelExecutionPool.run P s pool args).pool.pid_index = pool.pid_index := by
  revert h
  simp only [ParallelExecutionPool.run]
  by_cases hcap : pool.max_concurrent ≤ pool.pids.length
  · rw [if_pos hcap]
    rcases hres : (ParallelExecutionPool.wait_for_any_job_to_complete P s pool).res with e2 | u
    · simp only [hres]
      intro _
      exact waitAnyJob_pid_index P s pool
    · simp only [hres]
      rcases hsp : P.spawn (ParallelExecutionPool.wait_for_any_job_to_complete P s pool).s args
        with ⟨s1, sr⟩
      cases sr with
      | err =>
        intro _
        exact waitAnyJob_pid_index P s pool
      | ok proc => intro h; simp at h
  · rw [if_neg hcap]
    rcases hsp : P.spawn s args with ⟨s1, sr⟩
    cases sr with
    | err => intro _; rfl
    | ok proc => intro h; simp at h

theorem poolRun_keysP (P : Platform σ) (s : σ) (pool : ParallelExecutionPool)
    (args : List String) (j : Nat)
    (h : j ∈ dictKeys pool.pids ∨ j ∈ dictKeys pool.completed) :
    j ∈ dictKeys (ParallelExecutionPool.run P s pool args).pool.pids ∨
      j ∈ dictKeys (ParallelExecutionPool.run P s pool args).pool.completed := by
  simp only [ParallelExecutionPool.run]
  by_cases hcap : pool.max_concurrent ≤ pool.pids.length
  · rw [if_pos hcap]
    have hw := waitAnyJob_keysP P s pool j h
    rcases hres : (ParallelExecutionPool.wait_for_any_job_to_complete P s pool).res with e | u
    · simpa only [hres] using hw
    · simp only [hres]
      rcases hsp : P.spawn (ParallelExecutionPool.wait_for_any_job_to_complete P s pool).s args
        with ⟨s1, sr⟩
      cases sr with
      | err => exact hw
      | ok proc =>
        rcases hw with hw | hw
        · exact Or.inl (mem_dictKeys_dictSet_of j _ proc _ hw)
        · exact Or.inr hw
  · rw [if_neg hcap]
    rcases hsp : P.spawn s args with ⟨s1, sr⟩
    cases sr with
    | err => exact h
    | ok proc =>
      rcases h with hh | hh
      · exact Or.inl (mem_dictKeys_dictSet_of j _ proc _ hh)
      · exact Or.inr hh

theorem poolRun_nodup (P : Platform σ) (s : σ) (pool : ParallelExecutionPool)
    (args : List String) (h : (dictKeys pool.pids).Nodup) :
    (dictKeys (ParallelExecutionPool.run P s pool args).pool.pids).Nodup := by
  simp only [ParallelExecutionPool.run]
  by_cases hcap : pool.max_concurrent ≤ pool.pids.length
  · rw [if_pos hcap]
    have hw := waitAnyJob_nodup P s pool h
    rcases hres : (ParallelExecutionPool.wait_for_any_job_to_complete P s pool).res with e | u
    · exact hw
    · simp only [hres]
      rcases hsp : P.spawn (ParallelExecutionPool.wait_for_any_job_to_complete P s pool).s args
        with ⟨s1, sr⟩
      cases sr with
      | err => exact hw
      | ok proc => exact nodup_dictKeys_dictSet _ proc _ hw
  · rw [if_neg hcap]
    rcases hsp : P.spawn s args with ⟨s1, sr⟩
    cases sr with
    | err => exact h
    | ok proc => exact nodup_dictKeys_dictSet _ proc _ h

theorem poolRun_capacity (P : Platform σ) (dead : Process → Prop)
    (hC : PlatformContract P dead) (s : σ) (pool : ParallelExecutionPool)
    (args : List String) (hmax : 1 ≤ pool.max_concurrent)
    (hlen : pool.pids.length ≤ pool.max_concurrent) :
    (ParallelExecutionPool.run P s pool args).pool.pids.length ≤ pool.max_concurrent := by
  simp only [ParallelExecutionPool.run]
  by_cases hcap : pool.max_concurrent ≤ pool.pids.length
  · rw [if_pos hcap]
    have hne : pool.pids ≠ [] := by
      intro hh
      rw [hh] at hcap
      simp at hcap
      omega
    rcases hres : (ParallelExecutionPool.wait_for_any_job_to_complete P s pool).res with e | u
    · simp only [hres]
      exact Nat.le_trans (waitAnyJob_pids_length_le P s pool) hlen
    · have hdec := waitAnyJob_contract_decrease P dead hC s pool hne (by rw [hres])
      simp only [hres]
      rcases hsp : P.spawn (ParallelExecutionPool.wait_for_any_job_to_complete P s pool).s args
        with ⟨s1, sr⟩
      cases sr with
      | err => exact Nat.le_trans (Nat.le_of_lt hdec) hlen
      | ok proc =>
        simp only
        have h1 := dictSet_length_le
          (ParallelExecutionPool.wait_for_any_job_to_complete P s pool).pool.pid_index proc
          (ParallelExecutionPool.wait_for_any_job_to_complete P s pool).pool.pids
        omega
  · rw [if_neg hcap]
    have hlt : pool.pids.length < pool.max_concurrent := Nat.lt_of_not_le hcap
    rcases hsp : P.spawn s args with ⟨s1, sr⟩
    cases sr with
    | err => exact hlen
    | ok proc =>
      simp only
      have h1 := dictSet_length_le pool.pid_index proc pool.pids
      omega

/-! ### wait_for_all_jobs_to_complete lemmas -/

theorem waitAllJobs_ok_pids_empty (P : Platform σ) (fuel : Nat) (s : σ)
    (pool : ParallelExecutionPool)
    (h : (ParallelExecutionPool.wait_for_all_jobs_to_complete P fuel s pool).res = Except.ok ()) :
    (ParallelExecutionPool.wait_for_all_jobs_to_complete P fuel s pool).pool.pids = [] := by
  induction fuel generalizing s pool with
  | zero =>
    revert h
    simp only [ParallelExecutionPool.wait_for_all_jobs_to_complete]
    by_cases he : pool.pids.isEmpty
    · rw [if_pos he]
      intro _
      exact List.isEmpty_iff.mp he
    · rw [if_neg he]
      intro h
      simp at h
  | succ fuel ih =>
    revert h
    simp only [ParallelExecutionPool.wait_for_all_jobs_to_complete]
    by_cases he : pool.pids.isEmpty
    · rw [if_pos he]
      intro _
      exact List.isEmpty_iff.mp he
    · rw [if_neg he]
      rcases hres : (ParallelExecutionPool.wait_for_any_job_to_complete P s pool).res with e | u
      · simp only [hres]
        intro h
        simp at h
      · simp only [hres]
        intro h
        exact ih _ _ h

theorem waitAllJobs_keysP (P : Platform σ) (fuel : Nat) (s : σ)
    (pool : ParallelExecutionPool) (j : Nat)
    (h : j ∈ dictKeys pool.pids ∨ j ∈ dictKeys pool.completed) :
    j ∈ dictKeys (ParallelExecutionPool.wait_for_all_jobs_to_complete P fuel s pool).pool.pids ∨
      j ∈ dictKeys (ParallelExecutionPool.wait_for_all_jobs_to_complete P fuel s pool).pool.completed := by
  induction fuel generalizing s pool with
  | zero =>
    simp only [ParallelExecutionPool.wait_for_all_jobs_to_complete]
    by_cases he : pool.pids.isEmpty
    · rw [if_pos he]; exact h
    · rw [if_neg he]; exact h
  | succ fuel ih =>
    simp only [ParallelExecutionPool.wait_for_all_jobs_to_complete]
    by_cases he : pool.pids.isEmpty
    · rw [if_pos he]; exact h
    · rw [if_neg he]
      have hw := waitAnyJob_keysP P s pool j h
      rcases hres : (ParallelExecutionPool.wait_for_any_job_to_complete P s pool).res with e | u
      · simpa only [hres] using hw
      · simp only [hres]
        exact ih _ _ hw

theorem waitAllJobs_pid_index (P : Platform σ) (fuel : Nat) (s : σ)
    (pool : ParallelExecutionPool) :
    (ParallelExecutionPool.wait_for_all_jobs_to_complete P fuel s pool).pool.pid_index =
      pool.pid_index := by
  induction fuel generalizing s pool with
  | zero =>
    simp only [ParallelExecutionPool.wait_for_all_jobs_to_complete]
    by_cases he : pool.pids.isEmpty
    · rw [if_pos he]
    · rw [if_neg he]
  | succ fuel ih =>
    simp only [ParallelExecutionPool.wait_for_all_jobs_to_complete]
    by_cases he : pool.pids.isEmpty
    · rw [if_pos he]
    · rw [if_neg he]
      rcases hres : (ParallelExecutionPool.wait_for_any_job_to_complete P s pool).res with e | u
      · simp only [hres]
        exact waitAnyJob_pid_index P s pool
      · simp only [hres]
        rw [ih _ _]
        exact waitAnyJob_pid_index P s pool

theorem waitAllJobs_max (P : Platform σ) (fuel : Nat) (s : σ)
    (pool : ParallelExecutionPool) :
    (ParallelExecutionPool.wait_for_all_jobs_to_complete P fuel s pool).pool.max_concurrent =
      pool.max_concurrent := by
  induction fuel generalizing s pool with
  | zero =>
    simp only [ParallelExecutionPool.wait_for_all_jobs_to_complete]
    by_cases he : pool.pids.isEmpty
    · rw [if_pos he]
    · rw [if_neg he]
  | succ fuel ih =>
    simp only [ParallelExecutionPool.wait_for_all_jobs_to_complete]
    by_cases he : pool.pids.isEmpty
    · rw [if_pos he]
    · rw [if_neg he]
      rcases hres : (ParallelExecutionPool.wait_for_any_job_to_complete P s pool).res with e | u
      · simp only [hres]
        exact waitAnyJob_max P s pool
      · simp only [hres]
        rw [ih _ _]
        exact waitAnyJob_max P s pool

theorem waitAllJobs_pids_length_le (P : Platform σ) (fuel : Nat) (s : σ)
    (pool : ParallelExecutionPool) :
    (ParallelExecutionPool.wait_for_all_jobs_to_complete P fuel s pool).pool.pids.length ≤
      pool.pids.length := by
  induction fuel generalizing s pool with
  | zero =>
    simp only [ParallelExecutionPool.wait_for_all_jobs_to_complete]
    by_cases he : pool.pids.isEmpty
    · rw [if_pos he]
    · rw [if_neg he]
  | succ fuel ih =>
    simp only [ParallelExecutionPool.wait_for_all_jobs_to_complete]
    by_cases he : pool.pids.isEmpty
    · rw [if_pos he]
    · rw [if_neg he]
      rcases hres : (ParallelExecutionPool.wait_for_any_job_to_complete P s pool).res with e | u
      · simp only [hres]
        exact waitAnyJob_pids_length_le P s pool
      · simp only [hres]
        exact Nat.le_trans (ih _ _) (waitAnyJob_pids_length_le P s pool)

theorem waitAllJobs_nodup (P : Platform σ) (fuel : Nat) (s : σ)
    (pool : ParallelExecutionPool) (h : (dictKeys pool.pids).Nodup) :
    (dictKeys (ParallelExecutionPool.wait_for_all_jobs_to_complete P fuel s pool).pool.pids).Nodup := by
  induction fuel generalizing s pool with
  | zero =>
    simp only [ParallelExecutionPool.wait_for_all_jobs_to_complete]
    by_cases he : pool.pids.isEmpty
    · rw [if_pos he]; exact h
    · rw [if_neg he]; exact h
  | succ fuel ih =>
    simp only [ParallelExecutionPool.wait_for_all_jobs_to_complete]
    by_cases he : pool.pids.isEmpty
    · rw [if_pos he]; exact h
    · rw [if_neg he]
      have hw := waitAnyJob_nodup P s pool h
      rcases hres : (ParallelExecutionPool.wait_for_any_job_to_complete P s pool).res with e | u
      · exact hw
      · simp only [hres]
        exact ih _ _ hw

theorem waitAllJobs_effs (P : Platform σ) (fuel : Nat) (s : σ)
    (pool : ParallelExecutionPool) :
    (ParallelExecutionPool.wait_for_all_jobs_to_complete P fuel s pool).effs = [] := by
  induction fuel generalizing s pool with
  | zero =>
    simp only [ParallelExecutionPool.wait_for_all_jobs_to_complete]
    by_cases he : pool.pids.isEmpty
    · rw [if_pos he]
    · rw [if_neg he]
  | succ fuel ih =>
    simp only [ParallelExecutionPool.wait_for_all_jobs_to_complete]
    by_cases he : pool.pids.isEmpty
    · rw [if_pos he]
    · rw [if_neg he]
      rcases hres : (ParallelExecutionPool.wait_for_any_job_to_complete P s pool).res with e | u
      · simp only [hres]
        exact waitAnyJob_effs P s pool
      · simp only [hres]
        exact ih _ _

/-! ### Trace lemmas over sequences of pool operations -/

/-- A job id is recorded by the pool, either live or completed. -/
def inPoolRecord (pool : ParallelExecutionPool) (j : Nat) : Prop :=
  j ∈ dictKeys pool.pids ∨ j ∈ dictKeys pool.completed

theorem execOps_max (P : Platform σ) (s : σ) (pool : ParallelExecutionPool)
    (ops : List PoolOp) :
    (execOps P s pool ops).pool.max_concurrent = pool.max_concurrent := by
  induction ops generalizing s pool with
  | nil => rfl
  | cons op rest ih =>
    cases op with
    | run args =>
      simp only [execOps]
      rcases ho : (ParallelExecutionPool.run P s pool args).res with e | id
      · simp only [ho]
        rw [ih _ _]
        exact poolRun_max P s pool args
      · simp only [ho]
        rw [ih _ _]
        exact poolRun_max P s pool args
    | waitOne =>
      simp only [execOps]
      rw [ih _ _]
      exact waitAnyJob_max P s pool
    | waitAll fuel =>
      simp only [execOps]
      rw [ih _ _]
      exact waitAllJobs_max P fuel s pool

theorem execOps_capacity (P : Platform σ) (dead : Process → Prop)
    (hC : PlatformContract P dead) (s : σ) (pool : ParallelExecutionPool)
    (ops : List PoolOp) (hmax : 1 ≤ pool.max_concurrent)
    (hlen : pool.pids.length ≤ pool.max_concurrent) :
    (execOps P s pool ops).pool.pids.length ≤ pool.max_concurrent := by
  induction ops generalizing s pool with
  | nil => exact hlen
  | cons op rest ih =>
    cases op with
    | run args =>
      have hmax2 : 1 ≤ (ParallelExecutionPool.run P s pool args).pool.max_concurrent := by
        rw [poolRun_max P s pool args]; exact hmax
      have hlen2 := poolRun_capacity P dead hC s pool args hmax hlen
      simp only [execOps]
      rcases ho : (ParallelExecutionPool.run P s pool args).res with e | id
      · simp only [ho]
        have := ih (ParallelExecutionPool.run P s pool args).s
          (ParallelExecutionPool.run P s pool args).pool hmax2
          (by rw [poolRun_max P s pool args]; exact hlen2)
        rwa [poolRun_max P s pool args] at this
      · simp only [ho]
        have := ih (ParallelExecutionPool.run P s pool args).s
          (ParallelExecutionPool.run P s pool args).pool hmax2
          (by rw [poolRun_max P s pool args]; exact hlen2)
        rwa [poolRun_max P s pool args] at this
    | waitOne =>
      simp only [execOps]
      have hmax2 : 1 ≤ (ParallelExecutionPool.wait_for_any_job_to_complete P s pool).pool.max_concurrent := by
        rw [waitAnyJob_max P s pool]; exact hmax
      have hlen2 : (ParallelExecutionPool.wait_for_any_job_to_complete P s pool).pool.pids.length ≤
          (ParallelExecutionPool.wait_for_any_job_to_complete P s pool).pool.max_concurrent := by
        rw [waitAnyJob_max P s pool]
        exact Nat.le_trans (waitAnyJob_pids_length_le P s pool) hlen
      have := ih (ParallelExecutionPool.wait_for_any_job_to_complete P s pool).s
        (ParallelExecutionPool.wait_for_any_job_to_complete P s pool).pool hmax2 hlen2
      rwa [waitAnyJob_max P s pool] at this
    | waitAll fuel =>
      simp only [execOps]
      have hmax2 : 1 ≤ (ParallelExecutionPool.wait_for_all_jobs_to_complete P fuel s pool).pool.max_concurrent := by
        rw [waitAllJobs_max P fuel s pool]; exact hmax
      have hlen2 : (ParallelExecutionPool.wait_for_all_jobs_to_complete P fuel s pool).pool.pids.length ≤
          (ParallelExecutionPool.wait_for_all_jobs_to_complete P fuel s pool).pool.max_concurrent := by
        rw [waitAllJobs_max P fuel s pool]
        exact Nat.le_trans (waitAllJobs_pids_length_le P fuel s pool) hlen
      have := ih (ParallelExecutionPool.wait_for_all_jobs_to_complete P fuel s pool).s
        (ParallelExecutionPool.wait_for_all_jobs_to_complete P fuel s pool).pool hmax2 hlen2
      rwa [waitAllJobs_max P fuel s pool] at this

theorem execOps_pid_index_mono (P : Platform σ) (s : σ) (pool : ParallelExecutionPool)
    (ops : List PoolOp) :
    pool.pid_index ≤ (execOps P s pool ops).pool.pid_index := by
  induction ops generalizing s pool with
  | nil => exact Nat.le_refl _
  | cons op rest ih =>
    cases op with
    | run args =>
      simp only [execOps]
      rcases ho : (ParallelExecutionPool.run P s pool args).res with e | id
      · simp only [ho]
        exact Nat.le_trans (poolRun_pid_index_mono P s pool args) (ih _ _)
      · simp only [ho]
        exact Nat.le_trans (poolRun_pid_index_mono P s pool args) (ih _ _)
    | waitOne =>
      simp only [execOps]
      refine Nat.le_trans (Nat.le_of_eq (waitAnyJob_pid_index P s pool).symm) (ih _ _)
    | waitAll fuel =>
      simp only [execOps]
      refine Nat.le_trans (Nat.le_of_eq (waitAllJobs_pid_index P fuel s pool).symm) (ih _ _)

theorem execOps_ids_sorted (P : Platform σ) (s : σ) (pool : ParallelExecutionPool)
    (ops : List PoolOp) :
    (∀ id ∈ (execOps P s pool ops).ids, pool.pid_index ≤ id) ∧
      List.Pairwise (fun a b => a < b) (execOps P s pool ops).ids := by
  induction ops generalizing s pool with
  | nil => exact ⟨by simp [execOps], by simp [execOps]⟩
  | cons op rest ih =>
    cases op with
    | run args =>
      simp only [execOps]
      rcases ho : (ParallelExecutionPool.run P s pool args).res with e | id
      · simp only [ho]
        rcases ih (ParallelExecutionPool.run P s pool args).s
          (ParallelExecutionPool.run P s pool args).pool with ⟨h1, h2⟩
        refine ⟨fun j hj => ?_, h2⟩
        exact Nat.le_trans (poolRun_pid_index_mono P s pool args) (h1 j hj)
      · simp only [ho]
        rcases poolRun_ok P s pool args id ho with ⟨hid, hidx, _⟩
        rcases ih (ParallelExecutionPool.run P s pool args).s
          (ParallelExecutionPool.run P s pool args).pool with ⟨h1, h2⟩
        constructor
        · intro j hj
          rcases List.mem_cons.mp hj with hc | hc
          · rw [hc, hid]
          · have := h1 j hc
            rw [hidx] at this
            omega
        · refine List.pairwise_cons.mpr ⟨fun j hj => ?_, h2⟩
          have := h1 j hj
          rw [hidx] at this
          omega
    | waitOne =>
      simp only [execOps]
      rcases ih (ParallelExecutionPool.wait_for_any_job_to_complete P s pool).s
        (ParallelExecutionPool.wait_for_any_job_to_complete P s pool).pool with ⟨h1, h2⟩
      refine ⟨fun j hj => ?_, h2⟩
      have := h1 j hj
      rwa [waitAnyJob_pid_index P s pool] at this
    | waitAll fuel =>
      simp only [execOps]
      rcases ih (ParallelExecutionPool.wait_for_all_jobs_to_complete P fuel s pool).s
        (ParallelExecutionPool.wait_for_all_jobs_to_complete P fuel s pool).pool with ⟨h1, h2⟩
      refine ⟨fun j hj => ?_, h2⟩
      have := h1 j hj
      rwa [waitAllJobs_pid_index P fuel s pool] at this

theorem execOps_record (P : Platform σ) (s : σ) (pool : ParallelExecutionPool)
    (ops : List PoolOp) :
    (∀ j, inPoolRecord pool j → inPoolRecord (execOps P s pool ops).pool j) ∧
      (∀ id ∈ (execOps P s pool ops).ids, inPoolRecord (execOps P s pool ops).pool id) := by
  induction ops generalizing s pool with
  | nil => exact ⟨fun j hj => hj, by simp [execOps]⟩
  | cons op rest ih =>
    cases op with
    | run args =>
      simp only [execOps]
      rcases ho : (ParallelExecutionPool.run P s pool args).res with e | id
      · simp only [ho]
        rcases ih (ParallelExecutionPool.run P s pool args).s
          (ParallelExecutionPool.run P s pool args).pool with ⟨h1, h2⟩
        refine ⟨fun j hj => h1 j (poolRun_keysP P s pool args j hj), h2⟩
      · simp only [ho]
        rcases ih (ParallelExecutionPool.run P s pool args).s
          (ParallelExecutionPool.run P s pool args).pool with ⟨h1, h2⟩
        rcases poolRun_ok P s pool args id ho with ⟨_, _, hmem⟩
        constructor
        · exact fun j hj => h1 j (poolRun_keysP P s pool args j hj)
        · intro j hj
          rcases List.mem_cons.mp hj with hc | hc
          · subst hc
            exact h1 j (Or.inl hmem)
          · exact h2 j hc
    | waitOne =>
      simp only [execOps]
      rcases ih (ParallelExecutionPool.wait_for_any_job_to_complete P s pool).s
        (ParallelExecutionPool.wait_for_any_job_to_complete P s pool).pool with ⟨h1, h2⟩
      exact ⟨fun j hj => h1 j (waitAnyJob_keysP P s pool j hj), h2⟩
    | waitAll fuel =>
      simp only [execOps]
      rcases ih (ParallelExecutionPool.wait_for_all_jobs_to_complete P fuel s pool).s
        (ParallelExecutionPool.wait_for_all_jobs_to_complete P fuel s pool).pool with ⟨h1, h2⟩
      exact ⟨fun j hj => h1 j (waitAllJobs_keysP P fuel s pool j hj), h2⟩

/-! ### Contract instance for the demonstration platform -/

/-- The demonstration platform satisfies the platform contract, with no
process ever marked terminated (its wait always names the first entry of the
map it was given). -/
theorem demoPlat_contract : PlatformContract demoPlat (fun _ => False) := by
  constructor
  · intro s m s1 k st h
    cases m with
    | nil => simp [demoPlat] at h
    | cons kp rest =>
      rcases kp with ⟨k0, p0⟩
      simp only [demoPlat, Prod.mk.injEq, WaitRes.ok.injEq, Option.some.injEq] at h
      rw [← h.2.1]
      simp [dictKeys]
  · intro s m s1 st h hne
    cases m with
    | nil => simp [demoPlat] at h
    | cons kp rest =>
      rcases kp with ⟨k0, p0⟩
      simp [demoPlat] at h
  · intro s p hdead
    exact hdead.elim

/-- C2: starting from a pool created with capacity `max_concurrent ≥ 1`, under
the platform contract, after every prefix of run and wait calls the number of
live entries in `pids` is at most `max_concurrent`. -/
theorem c2_pids_bounded_by_max_concurrent (σ : Type) (P : Platform σ)
    (dead : Process → Prop) (hC : PlatformContract P dead) (max_concurrent : Nat)
    (hmax : 1 ≤ max_concurrent) (s : σ) (ops : List PoolOp) :
    (execOps P s (ParallelExecutionPool.create max_concurrent) ops).pool.pids.length ≤
      max_concurrent :=
  execOps_capacity P dead hC s (ParallelExecutionPool.create max_concurrent) ops hmax
    (by simp [ParallelExecutionPool.create])

/-- Witness for C2: a concrete platform, capacity 1, and three pool calls. -/
theorem c2_witness :
    (execOps demoPlat 0 (ParallelExecutionPool.create 1)
      [PoolOp.run ["a"], PoolOp.run ["b"], PoolOp.waitOne]).pool.pids.length ≤ 1 :=
  c2_pids_bounded_by_max_concurrent Nat demoPlat (fun _ => False) demoPlat_contract 1
    (by decide) 0 [PoolOp.run ["a"], PoolOp.run ["b"], PoolOp.waitOne]

/-- C8: the job ids returned by the successful run calls of any trace are
strictly increasing in call order, hence no id is ever assigned twice. -/
theorem c8_run_ids_strictly_increasing (σ : Type) (P : Platform σ) (s : σ)
    (pool : ParallelExecutionPool) (ops : List PoolOp) :
    List.Pairwise (fun a b => a < b) (execOps P s pool ops).ids ∧
      (execOps P s pool ops).ids.Nodup :=
  have h := execOps_ids_sorted P s pool ops
  ⟨h.2, h.2.imp (fun hlt => Nat.ne_of_lt hlt)⟩

/-- C5: when wait_for_all_jobs_to_complete returns successfully after any
trace of pool calls, `pids` is empty and every job id returned by an earlier
run is a key of `completed`. -/
theorem c5_wait_all_completes_every_id (σ : Type) (P : Platform σ) (s : σ)
    (pool : ParallelExecutionPool) (ops : List PoolOp) (fuel : Nat)
    (hok : (ParallelExecutionPool.wait_for_all_jobs_to_complete P fuel
        (execOps P s pool ops).s (execOps P s pool ops).pool).res = Except.ok ()) :
    (ParallelExecutionPool.wait_for_all_jobs_to_complete P fuel
        (execOps P s pool ops).s (execOps P s pool ops).pool).pool.pids = [] ∧
      ∀ id ∈ (execOps P s pool ops).ids,
        id ∈ dictKeys (ParallelExecutionPool.wait_for_all_jobs_to_complete P fuel
          (execOps P s pool ops).s (execOps P s pool ops).pool).pool.completed := by
  have hemp := waitAllJobs_ok_pids_empty P fuel _ _ hok
  refine ⟨hemp, fun id hid => ?_⟩
  have hrec := (execOps_record P s pool ops).2 id hid
  have hfin := waitAllJobs_keysP P fuel (execOps P s pool ops).s
    (execOps P s pool ops).pool id hrec
  rcases hfin with hfin | hfin
  · rw [hemp] at hfin
    simp [dictKeys] at hfin
  · exact hfin

/-- Witness for C5: one submission on the demonstration platform, then a
successful wait-for-all. -/
theorem c5_witness :
    (ParallelExecutionPool.wait_for_all_jobs_to_complete demoPlat 1
        (execOps demoPlat 0 (ParallelExecutionPool.create 1) [PoolOp.run ["a"]]).s
        (execOps demoPlat 0 (ParallelExecutionPool.create 1)
          [PoolOp.run ["a"]]).pool).pool.pids = [] ∧
      ∀ id ∈ (execOps demoPlat 0 (ParallelExecutionPool.create 1) [PoolOp.run ["a"]]).ids,
        id ∈ dictKeys (ParallelExecutionPool.wait_for_all_jobs_to_complete demoPlat 1
          (execOps demoPlat 0 (ParallelExecutionPool.create 1) [PoolOp.run ["a"]]).s
          (execOps demoPlat 0 (ParallelExecutionPool.create 1)
            [PoolOp.run ["a"]]).pool).pool.completed :=
  c5_wait_all_completes_every_id Nat demoPlat 0 (ParallelExecutionPool.create 1)
    [PoolOp.run ["a"]] 1 (by rfl)

/-! ### Further dictionary/sweep helpers -/

theorem dictGet_mem (k : Nat) (l : List (Nat × β)) (v : β)
    (h : dictGet k l = some v) : (k, v) ∈ l := by
  induction l with
  | nil => simp [dictGet] at h
  | cons e rest ih =>
    rcases e with ⟨e1, e2⟩
    by_cases he : e1 = k
    · subst he
      have h2 : e2 = v := by simpa [dictGet] using h
      subst h2
      exact List.mem_cons.mpr (Or.inl rfl)
    · simp only [dictGet, if_neg he] at h
      exact List.mem_cons.mpr (Or.inr (ih h))

theorem sweepPolls_nodup (P : Platform σ) (fst : ExitPollResult)
    (s : σ) (pids : List (Nat × Process)) (staged : List (Nat × ExitPollResult))
    (h : (dictKeys staged).Nodup) :
    (dictKeys (sweepPolls P fst s pids staged).2).Nodup := by
  induction pids generalizing s staged with
  | nil => exact h
  | cons e rest ih =>
    rcases e with ⟨k, p⟩
    simp only [sweepPolls]
    rcases hp : P.poll s p with ⟨s1, pr⟩
    cases pr with
    | exited st => exact ih s1 _ (nodup_dictKeys_dictSet k st staged h)
    | running => exact ih s1 _ h
    | err => exact ih s1 _ (nodup_dictKeys_dictSet k fst staged h)

/-! ### C4 — run with a failing spawn -/

/-- A platform whose spawn always fails and whose wait reports the first
entry of the map as finished with exit code 0. -/
def spawnFailPlat : Platform Nat where
  spawn := fun s _ => (s, SpawnRes.err)
  waitAny := fun s m =>
    match m with
    | [] => (s, WaitRes.err)
    | kp :: _ => (s, WaitRes.ok (some kp.1) ⟨0⟩)
  poll := fun s _ => (s, PollRes.running)
  kill := fun s _ => s

/-- A pool at capacity: one live job, capacity 1. -/
def c4pool : ParallelExecutionPool := ⟨[(0, ⟨0⟩)], [], 1, 1⟩

/-- Counterexample to C4 as stated: entering run at capacity with a failing
spawn returns SpawnError, yet the pool state is NOT unchanged — the wait that
run performs first moves job 0 from pids into completed. -/
theorem c4_counterexample :
    (ParallelExecutionPool.run spawnFailPlat 0 c4pool ["x"]).res =
        Except.error Err.spawnError ∧
      (ParallelExecutionPool.run spawnFailPlat 0 c4pool ["x"]).pool.completed ≠
        c4pool.completed := by
  constructor
  · rfl
  · decide

/-- C4 amended: if run is entered below capacity and the platform spawn
primitive fails, run returns SpawnError and the pool state (pids, completed
and pid_index) is unchanged.  (At capacity the preceding wait may move
entries from pids to completed before the spawn is attempted.) -/
theorem c4_spawn_failure_below_capacity (σ : Type) (P : Platform σ) (s : σ)
    (pool : ParallelExecutionPool) (args : List String) (s1 : σ)
    (hcap : pool.pids.length < pool.max_concurrent)
    (hsp : P.spawn s args = (s1, SpawnRes.err)) :
    (ParallelExecutionPool.run P s pool args).res = Except.error Err.spawnError ∧
      (ParallelExecutionPool.run P s pool args).pool = pool := by
  have hncap : ¬ pool.max_concurrent ≤ pool.pids.length := Nat.not_le_of_lt hcap
  simp only [ParallelExecutionPool.run, if_neg hncap]
  rw [hsp]
  exact ⟨rfl, rfl⟩

/-- Witness for the amended C4: fresh pool of capacity 2, failing spawn. -/
theorem c4_witness :
    (ParallelExecutionPool.run spawnFailPlat 0 (ParallelExecutionPool.create 2) ["x"]).res =
        Except.error Err.spawnError ∧
      (ParallelExecutionPool.run spawnFailPlat 0 (ParallelExecutionPool.create 2) ["x"]).pool =
        ParallelExecutionPool.create 2 :=
  c4_spawn_failure_below_capacity Nat spawnFailPlat 0 (ParallelExecutionPool.create 2)
    ["x"] 0 (by decide) (by decide)

/-! ### C6 — the reaping sweep of wait_for_any_job_to_complete -/

/-- A platform whose wait reports job 0 finished with exit code 7, while a
poll of any process reports an exit with code 0 (polls are pure). -/
def c6Plat : Platform Nat where
  spawn := fun s _ => (s, SpawnRes.err)
  waitAny := fun s _ => (s, WaitRes.ok (some 0) ⟨7⟩)
  poll := fun s _ => (s, PollRes.exited ⟨0⟩)
  kill := fun s _ => s

/-- A pool with exactly one live job (id 0). -/
def c6pool : ParallelExecutionPool := ⟨[(0, ⟨0⟩)], [], 1, 1⟩

/-- Counterexample to C6 as stated: the pool polls the finished entry too.
Job 0 is the finished id with finished status exit 7, but its poll reports
exit 0, and the recorded status is the polled 0 — were the finished entry
excluded from the poll sweep, it would have been staged with 7. -/
theorem c6_counterexample :
    (ParallelExecutionPool.wait_for_any_job_to_complete c6Plat 0 c6pool).pool.completed =
        [(0, ⟨0⟩)] ∧
      ((0 : Nat), (⟨7⟩ : ExitPollResult)) ∉
        (ParallelExecutionPool.wait_for_any_job_to_complete c6Plat 0 c6pool).pool.completed := by
  decide

/-- C6 amended: after the blocking wait returns `(fin, fst)`, the pool polls
every entry of pids INCLUDING the finished one.  In the same pass: an entry
whose poll reports an exit is removed from pids and recorded in completed
with the polled status (overriding `fst` for the finished entry); an entry
whose poll errors is removed and recorded with the placeholder `fst`; the
finished entry is removed with `fst` when its poll reports still-running; any
other still-running entry stays in pids with its completed record untouched. -/
theorem c6_wait_polls_every_entry (σ : Type) (P : Platform σ)
    (pf : Process → PollRes) (hpure : ∀ s0 p, P.poll s0 p = (s0, pf p))
    (s : σ) (pool : ParallelExecutionPool) (s1 : σ) (fin : Option Nat)
    (fst : ExitPollResult)
    (hw : P.waitAny s pool.pids = (s1, WaitRes.ok fin fst))
    (hnd : (dictKeys pool.pids).Nodup) :
    (ParallelExecutionPool.wait_for_any_job_to_complete P s pool).res = Except.ok () ∧
    ∀ kp ∈ pool.pids,
      (∀ st, pf kp.2 = PollRes.exited st →
        dictGet kp.1
            (ParallelExecutionPool.wait_for_any_job_to_complete P s pool).pool.completed =
          some st ∧
        kp.1 ∉ dictKeys
            (ParallelExecutionPool.wait_for_any_job_to_complete P s pool).pool.pids) ∧
      (pf kp.2 = PollRes.err →
        dictGet kp.1
            (ParallelExecutionPool.wait_for_any_job_to_complete P s pool).pool.completed =
          some fst ∧
        kp.1 ∉ dictKeys
            (ParallelExecutionPool.wait_for_any_job_to_complete P s pool).pool.pids) ∧
      (pf kp.2 = PollRes.running → fin = some kp.1 →
        dictGet kp.1
            (ParallelExecutionPool.wait_for_any_job_to_complete P s pool).pool.completed =
          some fst ∧
        kp.1 ∉ dictKeys
            (ParallelExecutionPool.wait_for_any_job_to_complete P s pool).pool.pids) ∧
      (pf kp.2 = PollRes.running → fin ≠ some kp.1 →
        kp.1 ∈ dictKeys
            (ParallelExecutionPool.wait_for_any_job_to_complete P s pool).pool.pids ∧
        dictGet kp.1
            (ParallelExecutionPool.wait_for_any_job_to_complete P s pool).pool.completed =
          dictGet kp.1 pool.completed) := by
  cases fin with
  | none =>
    have hres : ParallelExecutionPool.wait_for_any_job_to_complete P s pool =
        ⟨(sweepPolls P fst s1 pool.pids []).1,
          applyRemovals (sweepPolls P fst s1 pool.pids []).2 pool, [], Except.ok ()⟩ := by
      simp only [ParallelExecutionPool.wait_for_any_job_to_complete, hw]
    rw [hres]
    refine ⟨rfl, ?_⟩
    rintro ⟨K, p⟩ hkp
    have hsnd : (dictKeys (sweepPolls P fst s1 pool.pids []).2).Nodup :=
      sweepPolls_nodup P fst s1 pool.pids [] (by simp [dictKeys])
    have hget := sweepPolls_pure_get P pf hpure fst s1 pool.pids [] hnd K p hkp
    refine ⟨?_, ?_, ?_, ?_⟩
    · intro st hst
      rw [hst] at hget
      exact applyRemovals_staged_get _ pool K st hsnd (dictGet_mem K _ st hget)
    · intro hst
      rw [hst] at hget
      exact applyRemovals_staged_get _ pool K fst hsnd (dictGet_mem K _ fst hget)
    · intro hst hfin
      exact absurd hfin (by simp)
    · intro hst _
      rw [hst] at hget
      have hget2 : dictGet K (sweepPolls P fst s1 pool.pids []).2 = none := hget
      have hnot : K ∉ dictKeys (sweepPolls P fst s1 pool.pids []).2 := by
        intro hc
        have h3 := (dictGet_isSome_iff K _).mpr hc
        rw [hget2] at h3
        simp at h3
      have hu := applyRemovals_unstaged (sweepPolls P fst s1 pool.pids []).2 pool K hnot
      exact ⟨hu.2 ((mem_dictKeys K pool.pids).mpr ⟨p, hkp⟩), hu.1⟩
  | some fk =>
    have hres : ParallelExecutionPool.wait_for_any_job_to_complete P s pool =
        ⟨(sweepPolls P fst s1 pool.pids (dictSet fk fst [])).1,
          applyRemovals (sweepPolls P fst s1 pool.pids (dictSet fk fst [])).2 pool,
          [], Except.ok ()⟩ := by
      simp only [ParallelExecutionPool.wait_for_any_job_to_complete, hw]
    rw [hres]
    refine ⟨rfl, ?_⟩
    rintro ⟨K, p⟩ hkp
    have hsnd : (dictKeys (sweepPolls P fst s1 pool.pids (dictSet fk fst [])).2).Nodup :=
      sweepPolls_nodup P fst s1 pool.pids _ (by simp [dictSet, dictKeys])
    have hget := sweepPolls_pure_get P pf hpure fst s1 pool.pids (dictSet fk fst []) hnd K p hkp
    refine ⟨?_, ?_, ?_, ?_⟩
    · intro st hst
      rw [hst] at hget
      exact applyRemovals_staged_get _ pool K st hsnd (dictGet_mem K _ st hget)
    · intro hst
      rw [hst] at hget
      exact applyRemovals_staged_get _ pool K fst hsnd (dictGet_mem K _ fst hget)
    · intro hst hfin
      have hfk : fk = K := by injection hfin
      rw [hst] at hget
      have hget2 : dictGet K (sweepPolls P fst s1 pool.pids (dictSet fk fst [])).2 =
          some fst := by
        rw [hget, hfk]
        exact dictGet_dictSet_self K fst []
      exact applyRemovals_staged_get _ pool K fst hsnd (dictGet_mem K _ fst hget2)
    · intro hst hfin
      have hKfk : K ≠ fk := fun hh => hfin (by rw [hh])
      rw [hst] at hget
      have hget2 : dictGet K (sweepPolls P fst s1 pool.pids (dictSet fk fst [])).2 =
          none := by
        rw [hget]
        rw [dictGet_dictSet_ne K fk fst [] hKfk]
        rfl
      have hnot : K ∉ dictKeys (sweepPolls P fst s1 pool.pids (dictSet fk fst [])).2 := by
        intro hc
        have h3 := (dictGet_isSome_iff K _).mpr hc
        rw [hget2] at h3
        simp at h3
      have hu := applyRemovals_unstaged
        (sweepPolls P fst s1 pool.pids (dictSet fk fst [])).2 pool K hnot
      exact ⟨hu.2 ((mem_dictKeys K pool.pids).mpr ⟨p, hkp⟩), hu.1⟩

/-- Witness for the amended C6 at the concrete platform and pool. -/
theorem c6_witness :
    (ParallelExecutionPool.wait_for_any_job_to_complete c6Plat 0 c6pool).res = Except.ok () ∧
    ∀ kp ∈ c6pool.pids,
      (∀ st, (fun _ : Process => PollRes.exited ⟨0⟩) kp.2 = PollRes.exited st →
        dictGet kp.1
            (ParallelExecutionPool.wait_for_any_job_to_complete c6Plat 0 c6pool).pool.completed =
          some st ∧
        kp.1 ∉ dictKeys
            (ParallelExecutionPool.wait_for_any_job_to_complete c6Plat 0 c6pool).pool.pids) ∧
      ((fun _ : Process => PollRes.exited ⟨0⟩) kp.2 = PollRes.err →
        dictGet kp.1
            (ParallelExecutionPool.wait_for_any_job_to_complete c6Plat 0 c6pool).pool.completed =
          some ⟨7⟩ ∧
        kp.1 ∉ dictKeys
            (ParallelExecutionPool.wait_for_any_job_to_complete c6Plat 0 c6pool).pool.pids) ∧
      ((fun _ : Process => PollRes.exited ⟨0⟩) kp.2 = PollRes.running → some 0 = some kp.1 →
        dictGet kp.1
            (ParallelExecutionPool.wait_for_any_job_to_complete c6Plat 0 c6pool).pool.completed =
          some ⟨7⟩ ∧
        kp.1 ∉ dictKeys
            (ParallelExecutionPool.wait_for_any_job_to_complete c6Plat 0 c6pool).pool.pids) ∧
      ((fun _ : Process => PollRes.exited ⟨0⟩) kp.2 = PollRes.running → some 0 ≠ some kp.1 →
        kp.1 ∈ dictKeys
            (ParallelExecutionPool.wait_for_any_job_to_complete c6Plat 0 c6pool).pool.pids ∧
        dictGet kp.1
            (ParallelExecutionPool.wait_for_any_job_to_complete c6Plat 0 c6pool).pool.completed =
          dictGet kp.1 c6pool.completed) :=
  c6_wait_polls_every_entry Nat c6Plat (fun _ => PollRes.exited ⟨0⟩) (fun s0 p => rfl)
    0 c6pool 0 (some 0) ⟨7⟩ rfl (by decide)

/-! ### Builder-level lemmas -/

theorem killList_effs (P : Platform σ) (s : σ) (l : List (Nat × Process)) :
    (killList P s l).2 = l.map (fun kp => Eff.killed kp.2) := by
  induction l generalizing s with
  | nil => rfl
  | cons e rest ih =>
    rcases e with ⟨k, p⟩
    simp only [killList, List.map_cons]
    rw [ih]

theorem poolRun_effs_ok (P : Platform σ) (s : σ) (pool : ParallelExecutionPool)
    (args : List String) (id : Nat)
    (h : (ParallelExecutionPool.run P s pool args).res = Except.ok id) :
    (ParallelExecutionPool.run P s pool args).effs = [Eff.spawned args] := by
  revert h
  simp only [ParallelExecutionPool.run]
  by_cases hcap : pool.max_concurrent ≤ pool.pids.length
  · rw [if_pos hcap]
    rcases hres : (ParallelExecutionPool.wait_for_any_job_to_complete P s pool).res with e | u
    · simp only [hres]
      intro h
      simp at h
    · simp only [hres]
      rcases hsp : P.spawn (ParallelExecutionPool.wait_for_any_job_to_complete P s pool).s args
        with ⟨s1, sr⟩
      cases sr with
      | err => intro h; simp at h
      | ok proc =>
        intro _
        simp only
        rw [waitAnyJob_effs P s pool]
        rfl
  · rw [if_neg hcap]
    rcases hsp : P.spawn s args with ⟨s1, sr⟩
    cases sr with
    | err => intro h; simp at h
    | ok proc => intro _; rfl

theorem buildLoop_files (P : Platform σ) (po : PathOps) (bd : String)
    (cb : String → String → Option (List String)) (s : σ) (b : Builder)
    (ids : List Nat) (files : List String) :
    (buildLoop P po bd cb s b ids files).b.files_to_compile = b.files_to_compile := by
  induction files generalizing s b ids with
  | nil => rfl
  | cons f rest ih =>
    simp only [buildLoop]
    by_cases hsf : sweepFail b.pool.completed
    · rw [if_pos hsf]
    · rw [if_neg hsf]
      rcases hcb : cb (po.joinStr bd f) (po.joinStr bd (po.replaceExtO f)) with _ | args
      · rfl
      · simp only
        rcases ho : (ParallelExecutionPool.run P s
            { b with linked_files := b.linked_files ++ [po.joinStr bd (po.replaceExtO f)] }.pool
            args).res with e | id
        · simp only [ho]
        · simp only [ho]
          rw [ih]

theorem buildLoop_ok_linked (P : Platform σ) (po : PathOps) (bd : String)
    (cb : String → String → Option (List String)) (s : σ) (b : Builder)
    (ids : List Nat) (files : List String)
    (h : (buildLoop P po bd cb s b ids files).res = Except.ok ()) :
    (buildLoop P po bd cb s b ids files).b.linked_files =
      b.linked_files ++ files.map (fun f => po.joinStr bd (po.replaceExtO f)) := by
  induction files generalizing s b ids with
  | nil => simp [buildLoop]
  | cons f rest ih =>
    revert h
    simp only [buildLoop]
    by_cases hsf : sweepFail b.pool.completed
    · rw [if_pos hsf]
      intro h
      simp at h
    · rw [if_neg hsf]
      rcases hcb : cb (po.joinStr bd f) (po.joinStr bd (po.replaceExtO f)) with _ | args
      · intro h
        simp at h
      · simp only
        rcases ho : (ParallelExecutionPool.run P s
            { b with linked_files := b.linked_files ++ [po.joinStr bd (po.replaceExtO f)] }.pool
            args).res with e | id
        · simp only [ho]
          intro h
          simp at h
        · simp only [ho]
          intro h
          rw [ih _ _ _ h]
          simp

theorem finishPhase_ok (P : Platform σ) (fuel : Nat) (s : σ) (b : Builder)
    (h : (finishPhase P fuel s b).res = Except.ok ()) :
    (finishPhase P fuel s b).b.linked_files = b.linked_files ∧
      (finishPhase P fuel s b).b.files_to_compile = [] := by
  revert h
  simp only [finishPhase]
  rcases hw : (ParallelExecutionPool.wait_for_all_jobs_to_complete P fuel s b.pool).res
    with e | u
  · simp only [hw]
    intro h
    simp at h
  · simp only [hw]
    by_cases hsf : sweepFail
        (ParallelExecutionPool.wait_for_all_jobs_to_complete P fuel s b.pool).pool.completed
    · rw [if_pos hsf]
      intro h
      simp at h
    · rw [if_neg hsf]
      intro _
      exact ⟨rfl, rfl⟩

theorem finishPhase_err_files (P : Platform σ) (fuel : Nat) (s : σ) (b : Builder)
    (e : Err) (h : (finishPhase P fuel s b).res = Except.error e) :
    (finishPhase P fuel s b).b.files_to_compile = b.files_to_compile := by
  revert h
  simp only [finishPhase]
  rcases hw : (ParallelExecutionPool.wait_for_all_jobs_to_complete P fuel s b.pool).res
    with e2 | u
  · simp only [hw]
    intro _
    trivial
  · simp only [hw]
    by_cases hsf : sweepFail
        (ParallelExecutionPool.wait_for_all_jobs_to_complete P fuel s b.pool).pool.completed
    · rw [if_pos hsf]
      intro _
      trivial
    · rw [if_neg hsf]
      intro h
      simp at h

/-- C1: if build_all on a freshly created Builder returns successfully, then
linked_files holds exactly one object path per input file, in input order,
each being binary_dir joined with the file name with its extension replaced
by "o", and files_to_compile is empty. -/
theorem c1_build_all_success (σ : Type) (P : Platform σ) (po : PathOps)
    (binary_dir : String) (cb : String → String → Option (List String))
    (fuel : Nat) (s : σ) (files : List String) (max_concurrent : Nat)
    (h : (Builder.build_all P po binary_dir cb fuel s
        (Builder.for_building files max_concurrent)).res = Except.ok ()) :
    (Builder.build_all P po binary_dir cb fuel s
        (Builder.for_building files max_concurrent)).b.linked_files =
      files.map (fun f => po.joinStr binary_dir (po.replaceExtO f)) ∧
    (Builder.build_all P po binary_dir cb fuel s
        (Builder.for_building files max_concurrent)).b.files_to_compile = [] := by
  revert h
  simp only [Builder.build_all]
  rcases ho : (buildLoop P po binary_dir cb s (Builder.for_building files max_concurrent)
      [] (Builder.for_building files max_concurrent).files_to_compile).res with e | u
  · simp only [ho]
    intro h
    simp at h
  · simp only [ho]
    intro h
    have hfin := finishPhase_ok P fuel _ _ h
    have hlnk := buildLoop_ok_linked P po binary_dir cb s
      (Builder.for_building files max_concurrent) []
      (Builder.for_building files max_concurrent).files_to_compile ho
    refine ⟨?_, hfin.2⟩
    rw [hfin.1, hlnk]
    simp [Builder.for_building]

/-- A concrete path helper for witnesses. -/
def demoPathOps : PathOps :=
  ⟨fun d f => d ++ "/" ++ f, fun f => f ++ ".o"⟩

/-- A concrete compiler-invocation callback for witnesses. -/
def demoInvocation : String → String → Option (List String) :=
  fun src obj => some ["cc", src, obj]

/-- Witness for C1: two files, capacity 2, on the demonstration platform. -/
theorem c1_witness :
    (Builder.build_all demoPlat demoPathOps "/out" demoInvocation 5 0
        (Builder.for_building ["a.c", "b.c"] 2)).b.linked_files =
      (["a.c", "b.c"] : List String).map
        (fun f => demoPathOps.joinStr "/out" (demoPathOps.replaceExtO f)) ∧
    (Builder.build_all demoPlat demoPathOps "/out" demoInvocation 5 0
        (Builder.for_building ["a.c", "b.c"] 2)).b.files_to_compile = [] :=
  c1_build_all_success Nat demoPlat demoPathOps "/out" demoInvocation 5 0
    ["a.c", "b.c"] 2 (by rfl)

/-- C10: whenever build_all returns an error, files_to_compile is exactly
what it was at entry; it is reset only on the success path. -/
theorem c10_build_all_error_frame (σ : Type) (P : Platform σ) (po : PathOps)
    (binary_dir : String) (cb : String → String → Option (List String))
    (fuel : Nat) (s : σ) (b : Builder) (e : Err)
    (h : (Builder.build_all P po binary_dir cb fuel s b).res = Except.error e) :
    (Builder.build_all P po binary_dir cb fuel s b).b.files_to_compile =
      b.files_to_compile := by
  revert h
  simp only [Builder.build_all]
  rcases ho : (buildLoop P po binary_dir cb s b [] b.files_to_compile).res with e2 | u
  · simp only [ho]
    intro _
    exact buildLoop_files P po binary_dir cb s b [] b.files_to_compile
  · simp only [ho]
    intro h
    have hfr := finishPhase_err_files P fuel
      (buildLoop P po binary_dir cb s b [] b.files_to_compile).s
      (buildLoop P po binary_dir cb s b [] b.files_to_compile).b e h
    rw [hfr]
    exact buildLoop_files P po binary_dir cb s b [] b.files_to_compile

/-- Witness for C10: a failing spawn aborts build_all and leaves
files_to_compile untouched. -/
theorem c10_witness :
    (Builder.build_all spawnFailPlat demoPathOps "/out" demoInvocation 3 0
        (Builder.for_building ["a.c"] 1)).b.files_to_compile =
      (Builder.for_building ["a.c"] 1).files_to_compile :=
  c10_build_all_error_frame Nat spawnFailPlat demoPathOps "/out" demoInvocation 3 0
    (Builder.for_building ["a.c"] 1) Err.spawnError (by rfl)

/-- C3: when the mid-loop sweep of build_all sees a nonzero exit code it
emits exactly "Error: Compilation failed", kills every live child via
kill_all, leaves the Builder untouched, and returns the errno-1 BuildFailed
error; when only the post-loop sweep (after a successful
wait_for_all_jobs_to_complete) sees a nonzero exit code, the same line is
emitted and the same error returned, with no kill. -/
theorem c3_failure_sweep_behaviour :
    (∀ (σ : Type) (P : Platform σ) (po : PathOps) (bd : String)
        (cb : String → String → Option (List String)) (s : σ) (b : Builder)
        (ids : List Nat) (f : String) (rest : List String),
      sweepFail b.pool.completed = true →
        (buildLoop P po bd cb s b ids (f :: rest)).res =
            Except.error (Err.fromErrno 1) ∧
          (buildLoop P po bd cb s b ids (f :: rest)).effs =
            Eff.emit "Error: Compilation failed" ::
              (ParallelExecutionPool.kill_all P s b.pool).2 ∧
          (ParallelExecutionPool.kill_all P s b.pool).2 =
            b.pool.pids.map (fun kp => Eff.killed kp.2) ∧
          (buildLoop P po bd cb s b ids (f :: rest)).b = b) ∧
    (∀ (σ : Type) (P : Platform σ) (fuel : Nat) (s : σ) (b : Builder),
      (ParallelExecutionPool.wait_for_all_jobs_to_complete P fuel s b.pool).res =
          Except.ok () →
        sweepFail (ParallelExecutionPool.wait_for_all_jobs_to_complete P fuel s
            b.pool).pool.completed = true →
        (finishPhase P fuel s b).res = Except.error (Err.fromErrno 1) ∧
          (finishPhase P fuel s b).effs = [Eff.emit "Error: Compilation failed"]) := by
  constructor
  · intro σ P po bd cb s b ids f rest hsf
    simp only [buildLoop, hsf, if_true]
    exact ⟨trivial, trivial, killList_effs P s b.pool.pids, trivial⟩
  · intro σ P fuel s b hw hsf
    simp only [finishPhase, hw, hsf, if_true]
    exact ⟨trivial, trivial⟩

/-- A Builder whose pool already records a failed compilation and still has a
live child (for the mid-loop sweep), used as witness input. -/
def c3midBuilder : Builder :=
  ⟨[], ["a.c"], ⟨[(0, ⟨0⟩)], [(1, ⟨9⟩)], 2, 2⟩⟩

/-- A Builder with no live children and a recorded failure (for the post-loop
sweep), used as witness input. -/
def c3tailBuilder : Builder :=
  ⟨[], [], ⟨[], [(0, ⟨7⟩)], 1, 1⟩⟩

/-- Witness for C3: both sweeps exercised at concrete inputs. -/
theorem c3_witness :
    ((buildLoop demoPlat demoPathOps "/out" demoInvocation 0 c3midBuilder []
        ["a.c"]).res = Except.error (Err.fromErrno 1) ∧
      (buildLoop demoPlat demoPathOps "/out" demoInvocation 0 c3midBuilder []
        ["a.c"]).effs =
        Eff.emit "Error: Compilation failed" ::
          (ParallelExecutionPool.kill_all demoPlat 0 c3midBuilder.pool).2) ∧
    ((finishPhase demoPlat 1 0 c3tailBuilder).res = Except.error (Err.fromErrno 1) ∧
      (finishPhase demoPlat 1 0 c3tailBuilder).effs =
        [Eff.emit "Error: Compilation failed"]) :=
  have h1 := c3_failure_sweep_behaviour.1 Nat demoPlat demoPathOps "/out"
    demoInvocation 0 c3midBuilder [] "a.c" [] (by decide)
  have h2 := c3_failure_sweep_behaviour.2 Nat demoPlat 1 0 c3tailBuilder
    (by rfl) (by decide)
  ⟨⟨h1.1, h1.2.1⟩, h2⟩

/-- C7: link_into_archive submits exactly one pool job with argument vector
[archiver, "cr", archive_filename] ++ linked_files, waits for all jobs, and
then: if that job's exit code is nonzero it emits exactly
"Error: Linking failed" and returns the errno-1 LinkFailed error, else it
returns success with no diagnostic. -/
theorem c7_link_into_archive (σ : Type) (P : Platform σ) (fuel : Nat) (s : σ)
    (b : Builder) (archiver archive_filename : String) (id : Nat)
    (hrun : (ParallelExecutionPool.run P s b.pool
        (archiver :: "cr" :: archive_filename :: b.linked_files)).res = Except.ok id)
    (hwait : (ParallelExecutionPool.wait_for_all_jobs_to_complete P fuel
        (ParallelExecutionPool.run P s b.pool
          (archiver :: "cr" :: archive_filename :: b.linked_files)).s
        (ParallelExecutionPool.run P s b.pool
          (archiver :: "cr" :: archive_filename :: b.linked_files)).pool).res =
      Except.ok ()) :
    submissions (Builder.link_into_archive P fuel s b archiver archive_filename).effs =
        [archiver :: "cr" :: archive_filename :: b.linked_files] ∧
      ∃ st, ParallelExecutionPool.status
          (ParallelExecutionPool.wait_for_all_jobs_to_complete P fuel
            (ParallelExecutionPool.run P s b.pool
              (archiver :: "cr" :: archive_filename :: b.linked_files)).s
            (ParallelExecutionPool.run P s b.pool
              (archiver :: "cr" :: archive_filename :: b.linked_files)).pool).pool id =
          some st ∧
        (st.exit_code ≠ 0 →
          (Builder.link_into_archive P fuel s b archiver archive_filename).res =
              Except.error (Err.fromErrno 1) ∧
            emitted (Builder.link_into_archive P fuel s b archiver archive_filename).effs =
              ["Error: Linking failed"]) ∧
        (st.exit_code = 0 →
          (Builder.link_into_archive P fuel s b archiver archive_filename).res =
              Except.ok () ∧
            emitted (Builder.link_into_archive P fuel s b archiver archive_filename).effs =
              []) := by
  have heff := poolRun_effs_ok P s b.pool
    (archiver :: "cr" :: archive_filename :: b.linked_files) id hrun
  rcases poolRun_ok P s b.pool
    (archiver :: "cr" :: archive_filename :: b.linked_files) id hrun with ⟨_, _, hmem⟩
  have hrec := waitAllJobs_keysP P fuel
    (ParallelExecutionPool.run P s b.pool
      (archiver :: "cr" :: archive_filename :: b.linked_files)).s
    (ParallelExecutionPool.run P s b.pool
      (archiver :: "cr" :: archive_filename :: b.linked_files)).pool id (Or.inl hmem)
  have hemp := waitAllJobs_ok_pids_empty P fuel
    (ParallelExecutionPool.run P s b.pool
      (archiver :: "cr" :: archive_filename :: b.linked_files)).s
    (ParallelExecutionPool.run P s b.pool
      (archiver :: "cr" :: archive_filename :: b.linked_files)).pool hwait
  have hidc : id ∈ dictKeys
      (ParallelExecutionPool.wait_for_all_jobs_to_complete P fuel
        (ParallelExecutionPool.run P s b.pool
          (archiver :: "cr" :: archive_filename :: b.linked_files)).s
        (ParallelExecutionPool.run P s b.pool
          (archiver :: "cr" :: archive_filename :: b.linked_files)).pool).pool.completed := by
    rcases hrec with hrec | hrec
    · rw [hemp] at hrec
      simp [dictKeys] at hrec
    · exact hrec
  rcases Option.isSome_iff_exists.mp ((dictGet_isSome_iff id _).mpr hidc) with ⟨st, hst⟩
  have hstatus : ParallelExecutionPool.status
      (ParallelExecutionPool.wait_for_all_jobs_to_complete P fuel
        (ParallelExecutionPool.run P s b.pool
          (archiver :: "cr" :: archive_filename :: b.linked_files)).s
        (ParallelExecutionPool.run P s b.pool
          (archiver :: "cr" :: archive_filename :: b.linked_files)).pool).pool id =
      some st := hst
  refine ⟨?_, st, hstatus, ?_, ?_⟩
  · simp only [Builder.link_into_archive, hrun, hwait, hstatus]
    by_cases hz : st.exit_code = 0
    · rw [if_neg (show ¬ (st.exit_code != 0) = true by simp [hz])]
      simp [submissions, heff]
    · rw [if_pos (show (st.exit_code != 0) = true by simpa using hz)]
      simp [submissions, heff]
  · intro hz
    simp only [Builder.link_into_archive, hrun, hwait, hstatus]
    rw [if_pos (show (st.exit_code != 0) = true by simpa using hz)]
    refine ⟨rfl, ?_⟩
    simp [emitted, heff]
  · intro hz
    simp only [Builder.link_into_archive, hrun, hwait, hstatus]
    rw [if_neg (show ¬ (st.exit_code != 0) = true by simp [hz])]
    refine ⟨rfl, ?_⟩
    simp [emitted, heff]

/-- A Builder ready to archive one linked file, used as witness input. -/
def c7builder : Builder := ⟨["a.o"], [], ParallelExecutionPool.create 1⟩

/-- Witness for C7 on the demonstration platform. -/
theorem c7_witness :
    submissions (Builder.link_into_archive demoPlat 2 0 c7builder "ar" "libx.a").effs =
        ["ar" :: "cr" :: "libx.a" :: c7builder.linked_files] ∧
      ∃ st, ParallelExecutionPool.status
          (ParallelExecutionPool.wait_for_all_jobs_to_complete demoPlat 2
            (ParallelExecutionPool.run demoPlat 0 c7builder.pool
              ("ar" :: "cr" :: "libx.a" :: c7builder.linked_files)).s
            (ParallelExecutionPool.run demoPlat 0 c7builder.pool
              ("ar" :: "cr" :: "libx.a" :: c7builder.linked_files)).pool).pool 0 =
          some st ∧
        (st.exit_code ≠ 0 →
          (Builder.link_into_archive demoPlat 2 0 c7builder "ar" "libx.a").res =
              Except.error (Err.fromErrno 1) ∧
            emitted (Builder.link_into_archive demoPlat 2 0 c7builder "ar" "libx.a").effs =
              ["Error: Linking failed"]) ∧
        (st.exit_code = 0 →
          (Builder.link_into_archive demoPlat 2 0 c7builder "ar" "libx.a").res =
              Except.ok () ∧
            emitted (Builder.link_into_archive demoPlat 2 0 c7builder "ar" "libx.a").effs =
              []) :=
  c7_link_into_archive Nat demoPlat 2 0 c7builder "ar" "libx.a" 0 (by rfl) (by rfl)

/-! ### Scheduled-platform lemmas (for fail-fast analysis) -/

theorem keys_lt_length_le (l : List (Nat × β)) (n : Nat)
    (hnd : (dictKeys l).Nodup) (hlt : ∀ kv ∈ l, kv.1 < n) : l.length ≤ n := by
  have hlen : (dictKeys l).length = l.length := List.length_map l Prod.fst
  rw [← hlen]
  have hsub : (dictKeys l).toFinset ⊆ Finset.range n := by
    intro a ha
    rw [List.mem_toFinset] at ha
    rcases (mem_dictKeys a l).mp ha with ⟨b, hb⟩
    simpa [Finset.mem_range] using hlt (a, b) hb
  calc (dictKeys l).length = (dictKeys l).toFinset.card :=
        (List.toFinset_card_of_nodup hnd).symm
    _ ≤ (Finset.range n).card := Finset.card_le_card hsub
    _ = n := Finset.card_range n

theorem schedPlat_poll_noerr (sc : Sched) (s0 : Nat × Nat) (p : Process) :
    ((schedPlat sc).poll s0 p).2 ≠ PollRes.err := by
  simp only [schedPlat]
  by_cases h : sc.pollsExit s0.2 p.handle <;> simp [h]

theorem schedPlat_poll_exited (sc : Sched) (s0 s1 : Nat × Nat) (p : Process)
    (st : ExitPollResult) (h : (schedPlat sc).poll s0 p = (s1, PollRes.exited st)) :
    st = ⟨sc.exitOf p.handle⟩ := by
  have h2 := congrArg Prod.snd h
  simp only [schedPlat] at h2
  by_cases hb : sc.pollsExit s0.2 p.handle
  · rw [if_pos hb] at h2
    injection h2 with h3
    exact h3.symm
  · rw [if_neg hb] at h2
    exact absurd h2 (by simp)

theorem schedPlat_waitAny_mem (sc : Sched) (s0 : Nat × Nat) (e : Nat × Process)
    (es : List (Nat × Process)) :
    ∃ kp ∈ e :: es, (schedPlat sc).waitAny s0 (e :: es) =
      ((s0.1, s0.2 + 1), WaitRes.ok (some kp.1) ⟨sc.exitOf kp.2.handle⟩) :=
  ⟨(e :: es).get ⟨sc.pick (dictKeys (e :: es)) % (e :: es).length,
      Nat.mod_lt _ (Nat.succ_pos es.length)⟩,
    List.get_mem _ _ _, rfl⟩

theorem sweepPolls_sched_counter (sc : Sched) (fst : ExitPollResult) (s1 : Nat × Nat)
    (pids : List (Nat × Process)) (staged : List (Nat × ExitPollResult)) :
    (sweepPolls (schedPlat sc) fst s1 pids staged).1.1 = s1.1 := by
  induction pids generalizing s1 staged with
  | nil => rfl
  | cons e rest ih =>
    rcases e with ⟨k, p⟩
    simp only [sweepPolls]
    by_cases hb : sc.pollsExit s1.2 p.handle
    · have hpoll : (schedPlat sc).poll s1 p =
          ((s1.1, s1.2 + 1), PollRes.exited ⟨sc.exitOf p.handle⟩) := by
        simp [schedPlat, hb]
      rw [hpoll]
      exact ih _ _
    · have hpoll : (schedPlat sc).poll s1 p = ((s1.1, s1.2 + 1), PollRes.running) := by
        simp [schedPlat, hb]
      rw [hpoll]
      exact ih _ _

/-- The execution invariant for the scheduled platform: the spawn counter
tracks pid_index, pids has distinct keys bounded by pid_index with each
process handle equal to its job id, and every completed record carries the
scheduled exit code of its id. -/
def schedInv (sc : Sched) (s : Nat × Nat) (pool : ParallelExecutionPool) : Prop :=
  s.1 = pool.pid_index ∧
  (dictKeys pool.pids).Nodup ∧
  (∀ kp ∈ pool.pids, kp.2.handle = kp.1 ∧ kp.1 < pool.pid_index) ∧
  (∀ ke ∈ pool.completed, ke.2 = ExitPollResult.mk (sc.exitOf ke.1))

theorem waitAnyJob_sched (sc : Sched) (s : Nat × Nat) (pool : ParallelExecutionPool)
    (hne : pool.pids ≠ []) (hinv : schedInv sc s pool) :
    (ParallelExecutionPool.wait_for_any_job_to_complete (schedPlat sc) s pool).res =
        Except.ok () ∧
      schedInv sc (ParallelExecutionPool.wait_for_any_job_to_complete (schedPlat sc) s pool).s
        (ParallelExecutionPool.wait_for_any_job_to_complete (schedPlat sc) s pool).pool ∧
      (ParallelExecutionPool.wait_for_any_job_to_complete (schedPlat sc) s
          pool).pool.pids.length < pool.pids.length ∧
      (∀ j, inPoolRecord pool j →
        inPoolRecord
          (ParallelExecutionPool.wait_for_any_job_to_complete (schedPlat sc) s pool).pool j) := by
  rcases hpids : pool.pids with _ | ⟨e, es⟩
  · exact absurd hpids hne
  · rcases schedPlat_waitAny_mem sc s e es with ⟨kp, hkp, hweq⟩
    have hkp2 : kp ∈ pool.pids := by rw [hpids]; exact hkp
    have hweq2 : (schedPlat sc).waitAny s pool.pids =
        ((s.1, s.2 + 1), WaitRes.ok (some kp.1) ⟨sc.exitOf kp.2.handle⟩) := by
      rw [hpids]; exact hweq
    have hres : ParallelExecutionPool.wait_for_any_job_to_complete (schedPlat sc) s pool =
        ⟨(sweepPolls (schedPlat sc) ⟨sc.exitOf kp.2.handle⟩ (s.1, s.2 + 1) pool.pids
            (dictSet kp.1 ⟨sc.exitOf kp.2.handle⟩ [])).1,
          applyRemovals (sweepPolls (schedPlat sc) ⟨sc.exitOf kp.2.handle⟩ (s.1, s.2 + 1)
            pool.pids (dictSet kp.1 ⟨sc.exitOf kp.2.handle⟩ [])).2 pool,
          [], Except.ok ()⟩ := by
      simp only [ParallelExecutionPool.wait_for_any_job_to_complete, hweq2]
    rcases hinv with ⟨hcnt, hnd, hpid, hcomp⟩
    have hhandle : kp.2.handle = kp.1 := (hpid kp hkp2).1
    rw [hres]
    refine ⟨rfl, ⟨?_, ?_, ?_, ?_⟩, ?_, ?_⟩
    · simp only [applyRemovals_pid_index]
      rw [sweepPolls_sched_counter]
      exact hcnt
    · exact applyRemovals_nodup_pids _ _ hnd
    · intro kv hkv
      have := applyRemovals_pids_mem _ _ kv hkv
      rw [applyRemovals_pid_index]
      exact hpid kv this
    · intro ke hke
      rcases applyRemovals_completed_mem _ _ ke hke with hold | hstg
      · exact hcomp ke hold
      · rcases sweepPolls_mem_elim_noerr (schedPlat sc) _ _ _ _
          (fun s0 p => schedPlat_poll_noerr sc s0 p) ke hstg with h0 | h0
        · have : ke = (kp.1, (⟨sc.exitOf kp.2.handle⟩ : ExitPollResult)) := by
            simpa [dictSet] using h0
          rw [this, hhandle]
        · rcases h0 with ⟨p, t1, t2, hm, hp⟩
          have hval := schedPlat_poll_exited sc t1 t2 p ke.2 hp
          have hh : p.handle = ke.1 := (hpid (ke.1, p) hm).1
          rw [hval, hh]
    · rw [← hpids]
      apply applyRemovals_pids_length_lt
      have hk0 : kp.1 ∈ dictKeys (dictSet kp.1 (⟨sc.exitOf kp.2.handle⟩ : ExitPollResult) []) :=
        mem_dictKeys_dictSet_self _ _ _
      have hk1 := sweepPolls_keys_mono (schedPlat sc) ⟨sc.exitOf kp.2.handle⟩ (s.1, s.2 + 1)
        pool.pids _ kp.1 hk0
      rcases (mem_dictKeys kp.1 _).mp hk1 with ⟨v, hv⟩
      exact ⟨(kp.1, v), hv, (mem_dictKeys kp.1 pool.pids).mpr ⟨kp.2, hkp2⟩⟩
    · intro j hj
      exact applyRemovals_keysP _ pool j hj

theorem schedInv_spawn_step (sc : Sched) (ws : Nat × Nat) (wpool : ParallelExecutionPool)
    (hinv : schedInv sc ws wpool) :
    schedInv sc (ws.1 + 1, ws.2 + 1)
      ⟨dictSet wpool.pid_index ⟨ws.1⟩ wpool.pids, wpool.completed,
        wpool.pid_index + 1, wpool.max_concurrent⟩ := by
  rcases hinv with ⟨h1, h2, h3, h4⟩
  refine ⟨by simp [h1], nodup_dictKeys_dictSet _ _ _ h2, ?_, h4⟩
  intro kv hkv
  rcases mem_dictSet _ _ _ kv hkv with hc | hc
  · rw [hc]
    exact ⟨h1, Nat.lt_succ_self _⟩
  · rcases h3 kv hc with ⟨ha, hb⟩
    exact ⟨ha, Nat.lt_succ_of_lt hb⟩

theorem poolRun_sched (sc : Sched) (s : Nat × Nat) (pool : ParallelExecutionPool)
    (args : List String) (hmax : 1 ≤ pool.max_concurrent) (hinv : schedInv sc s pool) :
    (ParallelExecutionPool.run (schedPlat sc) s pool args).res =
        Except.ok pool.pid_index ∧
      schedInv sc (ParallelExecutionPool.run (schedPlat sc) s pool args).s
        (ParallelExecutionPool.run (schedPlat sc) s pool args).pool ∧
      (ParallelExecutionPool.run (schedPlat sc) s pool args).pool.pid_index =
        pool.pid_index + 1 ∧
      (∀ j, inPoolRecord pool j →
        inPoolRecord (ParallelExecutionPool.run (schedPlat sc) s pool args).pool j) ∧
      pool.pid_index ∈
        dictKeys (ParallelExecutionPool.run (schedPlat sc) s pool args).pool.pids ∧
      (ParallelExecutionPool.run (schedPlat sc) s pool args).pool.max_concurrent =
        pool.max_concurrent := by
  by_cases hcap : pool.max_concurrent ≤ pool.pids.length
  · have hne : pool.pids ≠ [] := by
      intro hh
      rw [hh] at hcap
      simp at hcap
      omega
    rcases waitAnyJob_sched sc s pool hne hinv with ⟨hok, hinv2, _, hcons⟩
    have hpidx := waitAnyJob_pid_index (schedPlat sc) s pool
    have hmaxeq := waitAnyJob_max (schedPlat sc) s pool
    have hrun : ParallelExecutionPool.run (schedPlat sc) s pool args =
        ⟨((ParallelExecutionPool.wait_for_any_job_to_complete (schedPlat sc) s pool).s.1 + 1,
            (ParallelExecutionPool.wait_for_any_job_to_complete (schedPlat sc) s pool).s.2 + 1),
          ⟨dictSet
              (ParallelExecutionPool.wait_for_any_job_to_complete (schedPlat sc) s
                pool).pool.pid_index
              ⟨(ParallelExecutionPool.wait_for_any_job_to_complete (schedPlat sc) s pool).s.1⟩
              (ParallelExecutionPool.wait_for_any_job_to_complete (schedPlat sc) s
                pool).pool.pids,
            (ParallelExecutionPool.wait_for_any_job_to_complete (schedPlat sc) s
              pool).pool.completed,
            (ParallelExecutionPool.wait_for_any_job_to_complete (schedPlat sc) s
              pool).pool.pid_index + 1,
            (ParallelExecutionPool.wait_for_any_job_to_complete (schedPlat sc) s
              pool).pool.max_concurrent⟩,
          (ParallelExecutionPool.wait_for_any_job_to_complete (schedPlat sc) s pool).effs ++
            [Eff.spawned args],
          Except.ok (ParallelExecutionPool.wait_for_any_job_to_complete (schedPlat sc) s
            pool).pool.pid_index⟩ := by
      simp only [ParallelExecutionPool.run, if_pos hcap, hok]
      rfl
    rw [hrun]
    refine ⟨?_, ?_, ?_, ?_, ?_, ?_⟩
    · rw [hpidx]
    · exact schedInv_spawn_step sc _ _ hinv2
    · simp only
      rw [hpidx]
    · intro j hj
      rcases hcons j hj with hc | hc
      · exact Or.inl (mem_dictKeys_dictSet_of j _ _ _ hc)
      · exact Or.inr hc
    · rw [← hpidx]
      exact mem_dictKeys_dictSet_self _ _ _
    · simp only
      rw [hmaxeq]
  · have hrun : ParallelExecutionPool.run (schedPlat sc) s pool args =
        ⟨(s.1 + 1, s.2 + 1),
          ⟨dictSet pool.pid_index ⟨s.1⟩ pool.pids, pool.completed,
            pool.pid_index + 1, pool.max_concurrent⟩,
          [] ++ [Eff.spawned args], Except.ok pool.pid_index⟩ := by
      simp only [ParallelExecutionPool.run, if_neg hcap]
      rfl
    rw [hrun]
    refine ⟨rfl, ?_, rfl, ?_, ?_, rfl⟩
    · exact schedInv_spawn_step sc s pool hinv
    · intro j hj
      rcases hj with hc | hc
      · exact Or.inl (mem_dictKeys_dictSet_of j _ _ _ hc)
      · exact Or.inr hc
    · exact mem_dictKeys_dictSet_self _ _ _

theorem waitAllJobs_sched (sc : Sched) (fuel : Nat) (s : Nat × Nat)
    (pool : ParallelExecutionPool) (hinv : schedInv sc s pool)
    (hfuel : pool.pids.length ≤ fuel) :
    (ParallelExecutionPool.wait_for_all_jobs_to_complete (schedPlat sc) fuel s pool).res =
        Except.ok () ∧
      schedInv sc
        (ParallelExecutionPool.wait_for_all_jobs_to_complete (schedPlat sc) fuel s pool).s
        (ParallelExecutionPool.wait_for_all_jobs_to_complete (schedPlat sc) fuel s pool).pool ∧
      (∀ j, inPoolRecord pool j →
        inPoolRecord
          (ParallelExecutionPool.wait_for_all_jobs_to_complete (schedPlat sc) fuel s
            pool).pool j) := by
  induction fuel generalizing s pool with
  | zero =>
    have hemp : pool.pids = [] := List.length_eq_zero.mp (Nat.le_zero.mp hfuel)
    simp only [ParallelExecutionPool.wait_for_all_jobs_to_complete]
    rw [if_pos (by simp [hemp])]
    exact ⟨rfl, hinv, fun j h => h⟩
  | succ fuel ih =>
    by_cases hemp : pool.pids.isEmpty
    · simp only [ParallelExecutionPool.wait_for_all_jobs_to_complete]
      rw [if_pos hemp]
      exact ⟨rfl, hinv, fun j h => h⟩
    · have hne : pool.pids ≠ [] := by simpa [List.isEmpty_iff] using hemp
      rcases waitAnyJob_sched sc s pool hne hinv with ⟨hok, hinv2, hdec, hcons⟩
      simp only [ParallelExecutionPool.wait_for_all_jobs_to_complete]
      rw [if_neg hemp]
      simp only [hok]
      have hfuel2 :
          (ParallelExecutionPool.wait_for_any_job_to_complete (schedPlat sc) s
            pool).pool.pids.length ≤ fuel := by omega
      rcases ih (ParallelExecutionPool.wait_for_any_job_to_complete (schedPlat sc) s pool).s
        (ParallelExecutionPool.wait_for_any_job_to_complete (schedPlat sc) s pool).pool
        hinv2 hfuel2 with ⟨h1, h2, h3⟩
      exact ⟨h1, h2, fun j hj => h3 j (hcons j hj)⟩

theorem buildLoop_sched (sc : Sched) (po : PathOps) (bd : String)
    (cb : String → String → Option (List String))
    (hcb : ∀ a b2, (cb a b2).isSome)
    (files : List String) (s : Nat × Nat) (b : Builder) (ids : List Nat)
    (hmax : 1 ≤ b.pool.max_concurrent) (hinv : schedInv sc s b.pool) :
    ((buildLoop (schedPlat sc) po bd cb s b ids files).res = Except.ok () ∨
      (buildLoop (schedPlat sc) po bd cb s b ids files).res =
        Except.error (Err.fromErrno 1)) ∧
    ((buildLoop (schedPlat sc) po bd cb s b ids files).res = Except.ok () →
      schedInv sc (buildLoop (schedPlat sc) po bd cb s b ids files).s
          (buildLoop (schedPlat sc) po bd cb s b ids files).b.pool ∧
        (buildLoop (schedPlat sc) po bd cb s b ids files).b.pool.pid_index =
          b.pool.pid_index + files.length ∧
        (∀ j, inPoolRecord b.pool j →
          inPoolRecord (buildLoop (schedPlat sc) po bd cb s b ids files).b.pool j) ∧
        (∀ i, i < files.length →
          inPoolRecord (buildLoop (schedPlat sc) po bd cb s b ids files).b.pool
            (b.pool.pid_index + i)) ∧
        (buildLoop (schedPlat sc) po bd cb s b ids files).b.pool.max_concurrent =
          b.pool.max_concurrent) := by
  induction files generalizing s b ids with
  | nil =>
    refine ⟨Or.inl rfl, fun _ => ⟨hinv, by simp [buildLoop], fun j h => h, ?_, rfl⟩⟩
    intro i hi
    simp at hi
  | cons f rest ih =>
    simp only [buildLoop]
    by_cases hsf : sweepFail b.pool.completed
    · rw [if_pos hsf]
      exact ⟨Or.inr rfl, fun h => absurd h (by simp)⟩
    · rw [if_neg hsf]
      rcases hv : cb (po.joinStr bd f) (po.joinStr bd (po.replaceExtO f)) with _ | args
      · have hc := hcb (po.joinStr bd f) (po.joinStr bd (po.replaceExtO f))
        rw [hv] at hc
        simp at hc
      · simp only
        rcases poolRun_sched sc s
          ({ b with linked_files :=
              b.linked_files ++ [po.joinStr bd (po.replaceExtO f)] } : Builder).pool
          args hmax hinv with ⟨hok, hinv2, hpidx, hcons, hmem, hmaxeq⟩
        simp only [hok]
        have hih := ih
          (ParallelExecutionPool.run (schedPlat sc) s
            ({ b with linked_files :=
                b.linked_files ++ [po.joinStr bd (po.replaceExtO f)] } : Builder).pool args).s
          (Builder.mk (b.linked_files ++ [po.joinStr bd (po.replaceExtO f)])
            b.files_to_compile
            (ParallelExecutionPool.run (schedPlat sc) s
              ({ b with linked_files :=
                  b.linked_files ++ [po.joinStr bd (po.replaceExtO f)] } : Builder).pool
              args).pool)
          (setAdd b.pool.pid_index ids)
          (by
            show 1 ≤ (ParallelExecutionPool.run (schedPlat sc) s
              ({ b with linked_files :=
                  b.linked_files ++ [po.joinStr bd (po.replaceExtO f)] } : Builder).pool
              args).pool.max_concurrent
            rw [hmaxeq]
            exact hmax)
          hinv2
        rcases hih with ⟨hres2, hok2⟩
        constructor
        · exact hres2
        · intro hfin
          rcases hok2 hfin with ⟨i1, i2, i3, i4, i5⟩
          refine ⟨i1, ?_, ?_, ?_, ?_⟩
          · rw [i2, hpidx]
            simp only [List.length_cons]
            omega
          · intro j hj
            exact i3 j (hcons j hj)
          · intro i hi
            cases i with
            | zero =>
              have hrec : inPoolRecord (ParallelExecutionPool.run (schedPlat sc) s
                  ({ b with linked_files :=
                      b.linked_files ++ [po.joinStr bd (po.replaceExtO f)] } : Builder).pool
                  args).pool (b.pool.pid_index + 0) := Or.inl (by simpa using hmem)
              exact i3 _ hrec
            | succ i0 =>
              have hlt : i0 < rest.length := by
                simp only [List.length_cons] at hi
                omega
              have := i4 i0 hlt
              rw [hpidx] at this
              have harith : b.pool.pid_index + (i0 + 1) = b.pool.pid_index + 1 + i0 := by omega
              rw [harith]
              exact this
          · rw [i5, hmaxeq]

/-- C9 amended: under a schedule-driven error-free platform, if the compile of
file k exits nonzero, build_all returns the errno-1 BuildFailed error —
under every termination schedule, regardless of reap order. -/
theorem c9_build_all_fails (sc : Sched) (po : PathOps) (bd : String)
    (cb : String → String → Option (List String)) (files : List String)
    (max_concurrent fuel k : Nat) (hmax : 1 ≤ max_concurrent)
    (hk : k < files.length) (hfuel : files.length ≤ fuel)
    (hcb : ∀ a b2, (cb a b2).isSome) (hexit : sc.exitOf k ≠ 0) :
    (Builder.build_all (schedPlat sc) po bd cb fuel (0, 0)
        (Builder.for_building files max_concurrent)).res =
      Except.error (Err.fromErrno 1) := by
  have hinv0 : schedInv sc (0, 0) (Builder.for_building files max_concurrent).pool := by
    refine ⟨rfl, ?_, ?_, ?_⟩
    · simp [Builder.for_building, ParallelExecutionPool.create, dictKeys]
    · intro kp hkp
      simp [Builder.for_building, ParallelExecutionPool.create] at hkp
    · intro ke hke
      simp [Builder.for_building, ParallelExecutionPool.create] at hke
  have hmax0 : 1 ≤ (Builder.for_building files max_concurrent).pool.max_concurrent := hmax
  rcases buildLoop_sched sc po bd cb hcb
    (Builder.for_building files max_concurrent).files_to_compile (0, 0)
    (Builder.for_building files max_concurrent) [] hmax0 hinv0 with ⟨hres, hok⟩
  simp only [Builder.build_all]
  rcases hres with hres | hres
  · simp only [hres]
    rcases hok hres with ⟨hinv1, hpidx1, hcons1, hpos1, hmax1⟩
    have hpidx1a : (buildLoop (schedPlat sc) po bd cb (0, 0)
        (Builder.for_building files max_concurrent) []
        (Builder.for_building files max_concurrent).files_to_compile).b.pool.pid_index =
        files.length := by
      rw [hpidx1]
      simp [Builder.for_building, ParallelExecutionPool.create]
    have hbound : (buildLoop (schedPlat sc) po bd cb (0, 0)
        (Builder.for_building files max_concurrent) []
        (Builder.for_building files max_concurrent).files_to_compile).b.pool.pids.length ≤
        fuel := by
      have hlen := keys_lt_length_le _ _ hinv1.2.1 (fun kv h => (hinv1.2.2.1 kv h).2)
      rw [hpidx1a] at hlen
      omega
    rcases waitAllJobs_sched sc fuel _ _ hinv1 hbound with ⟨hwok, hwinv, hwcons⟩
    have hkrec : inPoolRecord (buildLoop (schedPlat sc) po bd cb (0, 0)
        (Builder.for_building files max_concurrent) []
        (Builder.for_building files max_concurrent).files_to_compile).b.pool k := by
      have := hpos1 k (by
        simpa [Builder.for_building] using hk)
      simpa [Builder.for_building, ParallelExecutionPool.create] using this
    have hkrec2 := hwcons _ hkrec
    have hemp := waitAllJobs_ok_pids_empty (schedPlat sc) fuel _ _ hwok
    have hkc : k ∈ dictKeys (ParallelExecutionPool.wait_for_all_jobs_to_complete
        (schedPlat sc) fuel
        (buildLoop (schedPlat sc) po bd cb (0, 0)
          (Builder.for_building files max_concurrent) []
          (Builder.for_building files max_concurrent).files_to_compile).s
        (buildLoop (schedPlat sc) po bd cb (0, 0)
          (Builder.for_building files max_concurrent) []
          (Builder.for_building files max_concurrent).files_to_compile).b.pool).pool.completed := by
      rcases hkrec2 with hc | hc
      · rw [hemp] at hc
        simp [dictKeys] at hc
      · exact hc
    rcases (mem_dictKeys k _).mp hkc with ⟨v, hv⟩
    have hval := hwinv.2.2.2 (k, v) hv
    have hsf : sweepFail (ParallelExecutionPool.wait_for_all_jobs_to_complete
        (schedPlat sc) fuel
        (buildLoop (schedPlat sc) po bd cb (0, 0)
          (Builder.for_building files max_concurrent) []
          (Builder.for_building files max_concurrent).files_to_compile).s
        (buildLoop (schedPlat sc) po bd cb (0, 0)
          (Builder.for_building files max_concurrent) []
          (Builder.for_building files max_concurrent).files_to_compile).b.pool).pool.completed =
        true := by
      simp only [sweepFail, List.any_eq_true]
      refine ⟨(k, v), hv, ?_⟩
      rw [hval]
      simpa using hexit
    simp only [finishPhase, hwok]
    rw [if_pos hsf]
  · simp only [hres]

/-- The adversarial schedule for the counterexample: whenever job 1 is the
first live entry the wait reports the second entry instead, so job 1 is
reaped last; job 1 exits 7, every other job exits 0; polls never see an
exit. -/
def c9sched : Sched :=
  ⟨fun ks => if ks.head? = some 1 then 1 else 0,
   fun i => if i = 1 then 7 else 0,
   fun _ _ => false⟩

/-- Four input files for the counterexample. -/
def c9files : List String := ["a.c", "b.c", "c.c", "d.c"]

/-- Counterexample to C9's submission bound: 4 files, capacity 2, file k = 1
(0-based, k < n − max_concurrent) exits 7, yet under the adversarial
termination schedule build_all submits all 4 compile commands — more than
k + max_concurrent = 3 — before returning the BuildFailed error. -/
theorem c9_counterexample :
    (submissions (Builder.build_all (schedPlat c9sched) demoPathOps "/out"
        demoInvocation 10 (0, 0) (Builder.for_building c9files 2)).effs).length = 4 ∧
      ¬ ((submissions (Builder.build_all (schedPlat c9sched) demoPathOps "/out"
          demoInvocation 10 (0, 0) (Builder.for_building c9files 2)).effs).length ≤ 1 + 2) ∧
      (Builder.build_all (schedPlat c9sched) demoPathOps "/out" demoInvocation 10 (0, 0)
          (Builder.for_building c9files 2)).res = Except.error (Err.fromErrno 1) := by
  refine ⟨by rfl, by decide, by rfl⟩

/-- Witness for the amended C9 at the concrete schedule and inputs. -/
theorem c9_witness :
    (Builder.build_all (schedPlat c9sched) demoPathOps "/out" demoInvocation 10 (0, 0)
        (Builder.for_building c9files 2)).res = Except.error (Err.fromErrno 1) :=
  c9_build_all_fails c9sched demoPathOps "/out" demoInvocation c9files 2 10 1
    (by decide) (by decide) (by decide) (fun a b2 => rfl) (by decide)
